import Mathlib

/-!
Shallow embedding of `src/radian/decode.py` (CTC beam-search decoder with
optional RNA language-model fusion).

Modelling conventions:

* Probabilities are exact rationals (`ℚ`); a Python float is a rational, and
  the spec's properties are stated "exactly in real arithmetic".
* The source keeps per-beam probabilities in the log domain
  (`-inf` for log 0, `np.logaddexp` for accumulation, `+ log p` for scaling).
  We track the same quantities in the linear domain through the exact
  isomorphism `exp : ([-∞,∞), logaddexp, + log p, ≤) ≃ ([0,∞), +, * p, ≤)`:
  the fields `pr_total`, `pr_non_blank`, `pr_blank` hold the exponentials of
  the source's log-domain fields, `log(0)` becomes `0`, `log(1)` becomes `1`,
  `np.logaddexp x y` becomes `x + y`, `x + log p` becomes `x * p`, and sorting
  by log-probability is sorting by probability.  This makes every beam
  operation exact and executable.
* Entropies are genuinely transcendental (they use `math.log`), so `entropy`
  maps into `ℝ`; the entropy cache holds reals.
* The language model is a partial lookup `context → Option distribution`;
  `model[context]` raising `KeyError` is modelled by `Option`, and any
  function that can hit that lookup returns `Option` (a `none` result is an
  uncaught exception aborting the decode).
* Python list indexing `xs[i]` appears only at in-range indices in the source
  paths that the claims are about; it is embedded as `List.getD` with
  default `0` (respectively a default character for `bases[label]`).
* `defaultdict(BeamEntry)` is an insertion-ordered association list:
  touching an absent key appends a default entry at the end, exactly like
  the Python dict's insertion order; `sorted(..., reverse=True)` is a stable
  descending sort, embedded as a stable descending insertion sort.
-/

namespace Radian

/-- Number of bases (`N_BASES = 4` in the source); recorded for completeness. -/
def N_BASES : ℕ := 4

/-- A context or hypothesis labeling: a sequence of symbol indices. -/
abbrev Labeling := List ℕ

/-- The entropy cache `dict` maps contexts to cached model-distribution entropies. -/
abbrev Cache := Labeling → Option ℝ

/-- The RNA language model, exposed as a context-indexed table; `none` means
the model has no entry for the context (a Python `KeyError` on `model[context]`). -/
abbrev RnaModel := Labeling → Option (List ℚ)

/-- Python slice semantics of `get_context` (decode.py lines 42-49).
`exclude_last = true` embeds `labeling[-(len_context+1):-1]`;
`exclude_last = false` embeds `labeling[-len_context:]`, where Python's
`-0 == 0` makes `labeling[-0:]` the whole list, hence the `len_context = 0`
case returns `labeling` unchanged. -/
def get_context (labeling : List ℕ) (len_context : ℕ) (exclude_last : Bool) : List ℕ :=
  if exclude_last = true then
    (labeling.take (labeling.length - 1)).drop (labeling.length - 1 - len_context)
  else
    if len_context = 0 then labeling
    else labeling.drop (labeling.length - len_context)

/-- Embedding of `combine_dists` (decode.py lines 52-64): renormalise the
signal distribution's non-blank prefix, average it with the model
distribution, rescale by the non-blank mass and re-append the blank entry.
`s_dist[-1]` is embedded as `getLastD` (the source indexes a non-empty row). -/
def combine_dists (r_dist s_dist : List ℚ) : List ℚ :=
  let s_base_prob := s_dist.dropLast.sum
  let s_base_dist := s_dist.dropLast.map (fun x => x / s_base_prob)
  let c_dist := (List.zipWith (fun a b => a + b) r_dist s_base_dist).map (fun x => x / 2)
  let c_dist2 := c_dist.map (fun x => x * s_base_prob)
  c_dist2 ++ [s_dist.getLastD 0]

/-- The division `s_dist[:-1] / s_base_prob` in `combine_dists` carries no
zero guard; over floats a zero non-blank mass would produce NaN/inf values.
This checked variant makes that partiality explicit: it fails exactly when
the divisor is zero and otherwise agrees with `combine_dists`, whose exact
rational arithmetic is the semantics of the source on the non-degenerate
domain. -/
def combine_dists_checked (r_dist s_dist : List ℚ) : Option (List ℚ) :=
  if s_dist.dropLast.sum = 0 then none
  else some (combine_dists r_dist s_dist)

/-- Embedding of `normalise` (decode.py lines 67-70): pass a zero-sum vector
through unchanged, otherwise divide elementwise by the sum. -/
def normalise (dist : List ℚ) : List ℚ :=
  if dist.sum = 0 then dist else dist.map (fun x => x / dist.sum)

/-- Embedding of `entropy` (decode.py lines 73-76): drop the non-positive
entries (`dist[dist > 0]`), then `-sum(p * log p)` in natural-log units. -/
noncomputable def entropy (dist : List ℚ) : ℝ :=
  -(((dist.filter (fun p => decide (0 < p))).map
    (fun (p : ℚ) => (p : ℝ) * Real.log (p : ℝ))).sum)

/-- Embedding of `apply_rna_model` (decode.py lines 79-96).  Returns the
chosen distribution together with the updated entropy cache; `none` is the
uncaught `KeyError` raised by `model[context]` when the model lacks the
context. -/
noncomputable def apply_rna_model (s_dist : List ℚ) (context : List ℕ) (model : Option RnaModel)
    (entr_cache : Cache) (s_entropy r_threshold s_threshold : ℝ) : Option (List ℚ × Cache) :=
  match model with
  | none => some (s_dist, entr_cache)
  | some m =>
    match m context with
    | none => none
    | some r_dist =>
      let p :=
        match entr_cache context with
        | none =>
          let r_entropy := entropy r_dist
          (r_entropy, fun c => if c = context then some r_entropy else entr_cache c)
        | some e => (e, entr_cache)
      if p.1 < r_threshold ∧ s_entropy > s_threshold then
        some (combine_dists r_dist s_dist, p.2)
      else
        some (s_dist, p.2)

/-- Beam entry (decode.py lines 20-26), linear-domain: `pr_total`,
`pr_non_blank`, `pr_blank` are the exponentials of the source's log-domain
fields, so the dataclass defaults `log(0)` become `0`. -/
structure BeamEntry where
  pr_total : ℚ
  pr_non_blank : ℚ
  pr_blank : ℚ
  labeling : List ℕ
deriving Repr, DecidableEq

/-- The `BeamEntry()` default: all probabilities `log(0) = -inf`, i.e. `0`
linearly, empty labeling. -/
def default_entry : BeamEntry := ⟨0, 0, 0, []⟩

/-- A beam state (`BeamList.entries`): an insertion-ordered association list
from labelings to entries, exactly the iteration order of the Python
`defaultdict`. -/
abbrev BeamList := List (Labeling × BeamEntry)

/-- Lookup of a key in a beam state. -/
def findEntry : BeamList → Labeling → Option BeamEntry
  | [], _ => none
  | (k, e) :: rest, l => if k = l then some e else findEntry rest l

/-- Read through the `defaultdict`: an absent key reads as the default entry. -/
def getEntry (bl : BeamList) (l : Labeling) : BeamEntry :=
  (findEntry bl l).getD default_entry

/-- Mutation through the `defaultdict`: the first occurrence of the key is
modified in place; an absent key appends `f default_entry` at the end,
preserving Python's dict insertion order. -/
def updateEntry : BeamList → Labeling → (BeamEntry → BeamEntry) → BeamList
  | [], l, f => [(l, f default_entry)]
  | (k, e) :: rest, l, f => if k = l then (k, f e) :: rest else (k, e) :: updateEntry rest l f

/-- Stable descending insertion by `pr_total`: a new element goes after
every already-placed element of greater-or-equal key, which is exactly the
stability contract of Python's `sorted(..., reverse=True)`. -/
def insert_desc (e : BeamEntry) : List BeamEntry → List BeamEntry
  | [] => [e]
  | b :: rest => if e.pr_total ≤ b.pr_total then b :: insert_desc e rest else e :: b :: rest

/-- Stable descending sort of beam entries by `pr_total`
(`sorted(beams, reverse=True, key=lambda x: x.pr_total)`). -/
def sort_entries_desc (l : List BeamEntry) : List BeamEntry :=
  l.foldl (fun acc e => insert_desc e acc) []

/-- Embedding of `BeamList.sort_labelings` (decode.py lines 35-39). -/
def sort_labelings (bl : BeamList) : List Labeling :=
  (sort_entries_desc (bl.map Prod.snd)).map (fun e => e.labeling)

/-- COPY-transition mass for paths ending in a non-blank:
`last.entries[labeling].pr_non_blank + log(pr_dist[labeling[-1]])`, or
`log(0)` for the empty labeling (decode.py lines 153-165). -/
def copy_pnb (pr_dist : List ℚ) (prev : BeamList) (l : Labeling) : ℚ :=
  match l.getLast? with
  | none => 0
  | some x => (getEntry prev l).pr_non_blank * pr_dist.getD x 0

/-- COPY-transition mass for paths ending in a blank:
`last.entries[labeling].pr_total + log(mat[t, blank_idx])` (decode.py line 168). -/
def copy_pb (row : List ℚ) (blank_idx : ℕ) (prev : BeamList) (l : Labeling) : ℚ :=
  (getEntry prev l).pr_total * row.getD blank_idx 0

/-- EXTEND-transition mass for appending symbol `c` to `l` (decode.py lines
192-195): previous `pr_blank` when `c` duplicates `l`'s last symbol, else
previous `pr_total`, times `pr_dist[c]`. -/
def ext_contrib (pr_dist : List ℚ) (prev : BeamList) (l : Labeling) (c : ℕ) : ℚ :=
  (if l.getLast? = some c then (getEntry prev l).pr_blank else (getEntry prev l).pr_total) *
    pr_dist.getD c 0

/-- The COPY block's entry update (decode.py lines 171-175): accumulate
`pr_non_blank`, `pr_blank`, and their log-sum into `pr_total`. -/
def copy_mod (l : Labeling) (pb pnb : ℚ) (e : BeamEntry) : BeamEntry :=
  ⟨e.pr_total + (pb + pnb), e.pr_non_blank + pnb, e.pr_blank + pb, l⟩

/-- The EXTEND block's entry update (decode.py lines 197-201): accumulate the
contribution into `pr_non_blank` and `pr_total`; `pr_blank` is not touched. -/
def extend_mod (nl : Labeling) (pnb : ℚ) (e : BeamEntry) : BeamEntry :=
  ⟨e.pr_total + pnb, e.pr_non_blank + pnb, e.pr_blank, nl⟩

/-- One iteration of the EXTEND loop body for symbol `c` (decode.py lines
187-201). -/
def extend_symbol (prev : BeamList) (pr_dist : List ℚ) (l : Labeling) (c : ℕ)
    (curr : BeamList) : BeamList :=
  updateEntry curr (l ++ [c]) (extend_mod (l ++ [c]) (ext_contrib pr_dist prev l c))

/-- The whole EXTEND loop `for c in range(chars - 1)` for one labeling. -/
def extend_all (prev : BeamList) (pr_dist : List ℚ) (l : Labeling) (chars : ℕ)
    (curr : BeamList) : BeamList :=
  (List.range (chars - 1)).foldl (fun cur c => extend_symbol prev pr_dist l c cur) curr

/-- Processing of one retained labeling inside a timestep (decode.py lines
148-201): the COPY block (with the fused distribution when a model is
configured and the labeling is long enough, context excluding the last
symbol) followed by the EXTEND block (fused distribution with context
including the last symbol).  The blank mass always uses the raw row.
`none` propagates a `KeyError` from the model lookup. -/
noncomputable def process_labeling (lm : Option RnaModel) (s_threshold r_threshold : ℝ)
    (len_context blank_idx chars : ℕ) (prev : BeamList) (row : List ℚ) (s_entropy : ℝ)
    (cur : BeamList × Cache) (l : Labeling) : Option (BeamList × Cache) := do
  let copyRes ←
    match l.getLast? with
    | none => some ((0 : ℚ), cur.2)
    | some x => do
      let pd ←
        if lm.isSome ∧ len_context + 1 ≤ l.length then
          apply_rna_model row (get_context l len_context true) lm cur.2 s_entropy
            r_threshold s_threshold
        else some (row, cur.2)
      some ((getEntry prev l).pr_non_blank * pd.1.getD x 0, pd.2)
  let curr1 := updateEntry cur.1 l (copy_mod l (copy_pb row blank_idx prev l) copyRes.1)
  let pd2 ←
    if lm.isSome ∧ len_context ≤ l.length then
      apply_rna_model row (get_context l len_context false) lm copyRes.2 s_entropy
        r_threshold s_threshold
    else some (row, copyRes.2)
  some (extend_all prev pd2.1 l chars curr1, pd2.2)

/-- The initial beam state (decode.py lines 128-132): the empty labeling with
`pr_blank = pr_total = log(1)` and the default `pr_non_blank = log(0)`. -/
def init_state : BeamList := [([], ⟨1, 0, 1, []⟩)]

/-- One timestep of the beam search (decode.py lines 141-204): select the
top `beam_width` labelings of the previous state and fold the per-labeling
transitions into a fresh state, threading the entropy cache.  `rowE` is the
matrix row paired with its precomputed signal entropy. -/
noncomputable def beam_step (lm : Option RnaModel) (s_threshold r_threshold : ℝ)
    (len_context blank_idx chars beam_width : ℕ) (stc : BeamList × Cache)
    (rowE : List ℚ × ℝ) : Option (BeamList × Cache) :=
  ((sort_labelings stc.1).take beam_width).foldlM
    (process_labeling lm s_threshold r_threshold len_context blank_idx chars stc.1 rowE.1 rowE.2)
    ([], stc.2)

/-- The state after all timesteps of `beam_search` (decode.py lines 100-204):
fold the per-timestep transition over the rows, each paired with its signal
entropy `entropy(normalise(mat[t][:-1]))` (the precomputed `s_entropies`). -/
noncomputable def beam_search_final_state (mat : List (List ℚ)) (bases : String)
    (beam_width : ℕ) (lm : Option RnaModel) (s_threshold r_threshold : ℝ)
    (len_context : ℕ) (entr_cache : Cache) : Option (BeamList × Cache) :=
  (mat.map (fun row => (row, entropy (normalise row.dropLast)))).foldlM
    (beam_step lm s_threshold r_threshold len_context bases.length (mat.headD []).length
      beam_width)
    (init_state, entr_cache)

/-- Embedding of `beam_search` (decode.py lines 100-212): run all timesteps,
take the labeling of the best entry of the final state
(`last.sort_labelings()[0]`), and map symbol indices to characters of
`bases`.  `none` is an uncaught `KeyError` from an unmodeled context. -/
noncomputable def beam_search (mat : List (List ℚ)) (bases : String) (beam_width : ℕ)
    (lm : Option RnaModel) (s_threshold r_threshold : ℝ) (len_context : ℕ)
    (entr_cache : Cache) : Option String :=
  (beam_search_final_state mat bases beam_width lm s_threshold r_threshold len_context
      entr_cache).map
    (fun p => String.mk (((sort_labelings p.1).getD 0 []).map (fun i => bases.data.getD i ' ')))

/-- The `pr_total` of the best (first after the stable descending sort) entry
of a beam state; `0 = exp(log 0)` for an empty state. -/
def best_total (bl : BeamList) : ℚ :=
  ((sort_entries_desc (bl.map Prod.snd)).headD default_entry).pr_total

/-- The final best `pr_total` reached by `beam_search`: the score of the
entry whose labeling `beam_search` returns. -/
noncomputable def final_best_pr_total (mat : List (List ℚ)) (bases : String) (beam_width : ℕ)
    (lm : Option RnaModel) (s_threshold r_threshold : ℝ) (len_context : ℕ)
    (entr_cache : Cache) : Option ℚ :=
  (beam_search_final_state mat bases beam_width lm s_threshold r_threshold len_context
      entr_cache).map (fun p => best_total p.1)

/-- The state component of an optional `(state, cache)` result, the empty
state when the decode aborted. -/
def state_of (o : Option (BeamList × Cache)) : BeamList :=
  (o.map Prod.fst).getD []

/-- Per-labeling transition with no language model configured: the COPY and
EXTEND blocks both use the raw row (this is `process_labeling` with
`lm = None`, where no model lookup and no entropy can occur). -/
def process_labeling_pure (row : List ℚ) (blank_idx chars : ℕ) (prev : BeamList)
    (curr : BeamList) (l : Labeling) : BeamList :=
  extend_all prev row l chars
    (updateEntry curr l (copy_mod l (copy_pb row blank_idx prev l) (copy_pnb row prev l)))

/-- One timestep with no language model. -/
def step_pure (row : List ℚ) (blank_idx chars beam_width : ℕ) (prev : BeamList) : BeamList :=
  ((sort_labelings prev).take beam_width).foldl
    (process_labeling_pure row blank_idx chars prev) []

/-- All timesteps with no language model, from an explicit starting state. -/
def run_pure (mat : List (List ℚ)) (blank_idx chars beam_width : ℕ) (st : BeamList) : BeamList :=
  mat.foldl (fun s row => step_pure row blank_idx chars beam_width s) st

/-- The run with beam width `K` never truncates: every intermediate state
(from `st` through every prefix of `mat`) has at most `K` entries, so the
`take K` of each timestep is the whole sorted state. -/
def no_trunc_from (mat : List (List ℚ)) (blank_idx chars K : ℕ) (st : BeamList) : Prop :=
  ∀ t ∈ List.range (mat.length + 1), (run_pure (mat.take t) blank_idx chars K st).length ≤ K

/-- The total mass `process_labeling_pure` for labeling `l` adds to the entry
of key `K`, per field `(pr_total, pr_non_blank, pr_blank)`: the COPY amounts
when `K = l`, plus the EXTEND amount when `K = l ++ [c]` for some candidate
symbol `c`. -/
def delta_entry (row : List ℚ) (blank_idx chars : ℕ) (prev : BeamList) (l K : Labeling) :
    ℚ × ℚ × ℚ :=
  let ext := ((List.range (chars - 1)).map
    (fun c => if K = l ++ [c] then ext_contrib row prev l c else 0)).sum
  ((if K = l then copy_pb row blank_idx prev l + copy_pnb row prev l else 0) + ext,
   (if K = l then copy_pnb row prev l else 0) + ext,
   if K = l then copy_pb row blank_idx prev l else 0)

/-- A distribution is one-hot when its only nonzero entry is a single `1`. -/
def is_one_hot (d : List ℚ) : Prop :=
  d.filter (fun p => decide (p ≠ 0)) = [1]

/-- The CTC bookkeeping balance of one entry: the total is the (linear-domain)
log-sum of the blank-ending and non-blank-ending masses. -/
def entry_balanced (e : BeamEntry) : Prop :=
  e.pr_total = e.pr_blank + e.pr_non_blank

/-- The beam-state invariant of the spec: every retained labeling's entry is
balanced. -/
def total_invariant (bl : BeamList) : Prop :=
  ∀ p ∈ bl, entry_balanced (Prod.snd p)

/-- Pointwise (per-labeling, per-field) domination of one beam state by
another, read through the `defaultdict` so that absent keys compare as the
zero default entry. -/
def StateLe (b1 b2 : BeamList) : Prop :=
  ∀ l, (getEntry b1 l).pr_total ≤ (getEntry b2 l).pr_total ∧
    (getEntry b1 l).pr_non_blank ≤ (getEntry b2 l).pr_non_blank ∧
    (getEntry b1 l).pr_blank ≤ (getEntry b2 l).pr_blank

/-- All probability fields of a beam state are nonnegative (true of every
state reachable from a nonnegative matrix). -/
def StateNonneg (bl : BeamList) : Prop :=
  ∀ l, 0 ≤ (getEntry bl l).pr_total ∧ 0 ≤ (getEntry bl l).pr_non_blank ∧
    0 ≤ (getEntry bl l).pr_blank

/-- The association list has no duplicate keys (Python dict keys are unique). -/
def KeysNodup (bl : BeamList) : Prop :=
  (bl.map Prod.fst).Nodup

/-- Every stored entry's `labeling` field equals its key (the source always
writes `curr.entries[labeling].labeling = labeling`). -/
def LabelsMatch (bl : BeamList) : Prop :=
  ∀ p ∈ bl, (Prod.snd p).labeling = Prod.fst p

/-- The structural well-formedness a beam state keeps through the search. -/
def GoodState (bl : BeamList) : Prop :=
  StateNonneg bl ∧ KeysNodup bl ∧ LabelsMatch bl

/-! ### Association-list toolkit -/

theorem findEntry_updateEntry_self (bl : BeamList) (l : Labeling) (f : BeamEntry → BeamEntry) :
    findEntry (updateEntry bl l f) l = some (f (getEntry bl l)) := by
  induction bl with
  | nil => simp [updateEntry, findEntry, getEntry]
  | cons p rest ih =>
    obtain ⟨k, e⟩ := p
    by_cases h : k = l
    · subst h
      simp [updateEntry, findEntry, getEntry]
    · simp [updateEntry, findEntry, h, ih, getEntry]

theorem findEntry_updateEntry_ne (bl : BeamList) (l K : Labeling) (f : BeamEntry → BeamEntry)
    (h : K ≠ l) : findEntry (updateEntry bl l f) K = findEntry bl K := by
  induction bl with
  | nil =>
    have h2 : ¬ l = K := fun he => h he.symm
    simp [updateEntry, findEntry, h2]
  | cons p rest ih =>
    obtain ⟨k, e⟩ := p
    by_cases hk : k = l
    · subst hk
      have h2 : ¬ k = K := fun he => h (he.symm)
      simp [updateEntry, findEntry, h2]
    · simp only [updateEntry, if_neg hk, findEntry]
      by_cases hK : k = K <;> simp [hK, ih]

theorem getEntry_updateEntry_self (bl : BeamList) (l : Labeling) (f : BeamEntry → BeamEntry) :
    getEntry (updateEntry bl l f) l = f (getEntry bl l) := by
  simp [getEntry, findEntry_updateEntry_self]

theorem getEntry_updateEntry_ne (bl : BeamList) (l K : Labeling) (f : BeamEntry → BeamEntry)
    (h : K ≠ l) : getEntry (updateEntry bl l f) K = getEntry bl K := by
  simp [getEntry, findEntry_updateEntry_ne bl l K f h]

/-! ### C7 — `get_context` suffix extraction -/

/-- C7 (counterexample): `get_context` with context length `0` and
`exclude_last = False` does not return the empty context: Python's
`labeling[-0:]` is the whole labeling, so on `(5,)` it returns `(5,)`. -/
theorem get_context_zero_counterexample :
    get_context [5] 0 false = [5] ∧ get_context [5] 0 false ≠ [] := by
  decide

/-- C7 (amended): for context length `n ≥ 1`, `get_context` with
`exclude_last = False` on a labeling of length ≥ n returns exactly the last
`n` symbols; with `exclude_last = True` on a labeling of length ≥ n+1 it
returns the `n` symbols immediately preceding the last one (here for every
`n ≥ 0`); with context length `0`, `exclude_last = True` yields the empty
context but `exclude_last = False` yields the whole labeling. -/
theorem get_context_suffix (pre ctx : List ℕ) (x n : ℕ) :
    (1 ≤ n → ctx.length = n → get_context (pre ++ ctx) n false = ctx)
    ∧ (ctx.length = n → get_context (pre ++ ctx ++ [x]) n true = ctx)
    ∧ (∀ l : List ℕ, get_context l 0 true = [] ∧ get_context l 0 false = l) := by
  refine ⟨?_, ?_, ?_⟩
  · intro hn hlen
    have hne : ¬ n = 0 := by omega
    have harith : (pre ++ ctx).length - n = pre.length := by
      simp [List.length_append, hlen]
    simp only [get_context, if_neg (by simp : ¬ (false = true)), if_neg hne, harith]
    exact List.drop_left pre ctx
  · intro hlen
    have h1 : (pre ++ ctx ++ [x]).length - 1 = (pre ++ ctx).length := by
      simp [List.length_append]
    have h2 : (pre ++ ctx).length - n = pre.length := by
      simp [List.length_append, hlen]
    simp only [get_context, if_pos rfl, h1, List.take_left, h2]
    exact List.drop_left pre ctx
  · intro l
    constructor
    · simp only [get_context, if_pos rfl, Nat.sub_zero]
      exact List.drop_eq_nil_of_le (by simp [List.length_take])
    · rfl

/-- Witness for the amended C7 at concrete labelings. -/
theorem get_context_suffix_witness :
    (1 ≤ 2 ∧ ([3, 4] : List ℕ).length = 2 ∧ get_context ([1, 2] ++ [3, 4]) 2 false = [3, 4])
    ∧ (([3, 4] : List ℕ).length = 2 ∧ get_context ([1, 2] ++ [3, 4] ++ [9]) 2 true = [3, 4])
    ∧ (get_context [7, 8] 0 true = [] ∧ get_context [7, 8] 0 false = [7, 8]) :=
  ⟨⟨by decide, by decide, (get_context_suffix [1, 2] [3, 4] 9 2).1 (by decide) (by decide)⟩,
    ⟨by decide, (get_context_suffix [1, 2] [3, 4] 9 2).2.1 (by decide)⟩,
    (get_context_suffix [1, 2] [3, 4] 9 2).2.2 [7, 8]⟩

/-! ### C5 — unmodeled contexts abort rather than fall back -/

/-- C5 (counterexample): when the model has no entry for the required
context, `apply_rna_model` does not fall back to the signal distribution; it
propagates the lookup failure (`KeyError`), aborting the decode. -/
theorem apply_rna_model_unmodeled_aborts :
    apply_rna_model [1, 0, 0, 0, 0] [0] (some (fun _ => none)) (fun _ => none) 0 1 0
      = none := rfl

/-- C5 (amended): for every call with a configured model whose table lacks
the required context, `apply_rna_model` aborts with the model's lookup
failure instead of returning the signal distribution; unmodeled short
contexts are avoided only by the caller's labeling-length guards. -/
theorem apply_rna_model_unmodeled_context (s_dist : List ℚ) (context : List ℕ) (m : RnaModel)
    (cache : Cache) (sEnt rThr sThr : ℝ) (h : m context = none) :
    apply_rna_model s_dist context (some m) cache sEnt rThr sThr = none := by
  simp [apply_rna_model, h]

/-- Witness for the amended C5 at a concrete model and context. -/
theorem apply_rna_model_unmodeled_context_witness :
    ((fun _ => none : RnaModel) [1, 2] = none)
    ∧ apply_rna_model [0, 1, 0, 0, 0] [1, 2] (some (fun _ => none)) (fun _ => none) 0 1 0
      = none :=
  ⟨rfl, apply_rna_model_unmodeled_context _ _ _ _ _ _ _ rfl⟩

/-! ### C9 — the empty probability matrix decodes to the empty string -/

/-- C9: with an empty probability matrix (`T = 0`) the final beam state is
exactly the initial one — the lone empty labeling with `pr_blank = pr_total
= log 1` — and `beam_search` returns the empty string, for every alphabet,
beam width, model and thresholds. -/
theorem beam_search_empty_matrix :
    ∀ (bases : String) (w : ℕ) (lm : Option RnaModel) (sThr rThr : ℝ) (lc : ℕ) (cache : Cache),
      beam_search_final_state [] bases w lm sThr rThr lc cache = some (init_state, cache)
      ∧ beam_search [] bases w lm sThr rThr lc cache = some "" :=
  fun _ _ _ _ _ _ _ => ⟨rfl, rfl⟩

/-! ### C3 — the entropy gate of `apply_rna_model` -/

/-- C3: with a configured model defining the context, and a cache that only
ever holds the model distribution's entropy for that context (the only
values `apply_rna_model` itself ever stores), the blended distribution is
returned exactly when the model entropy is strictly below `r_threshold` and
the signal entropy strictly above `s_threshold`; otherwise, and whenever no
model is configured, the signal distribution is returned unchanged. -/
theorem apply_rna_model_entropy_gate (s_dist r_dist : List ℚ) (context : List ℕ) (m : RnaModel)
    (cache : Cache) (sEnt rThr sThr : ℝ)
    (hm : m context = some r_dist)
    (hc : ∀ e, cache context = some e → e = entropy r_dist) :
    (∃ cache2 : Cache,
      apply_rna_model s_dist context (some m) cache sEnt rThr sThr
        = some (if entropy r_dist < rThr ∧ sEnt > sThr then combine_dists r_dist s_dist
            else s_dist, cache2))
    ∧ ∀ (s2 : List ℚ) (c2 : List ℕ) (cch : Cache) (a b c : ℝ),
        apply_rna_model s2 c2 none cch a b c = some (s2, cch) := by
  constructor
  · cases h : cache context with
    | none =>
      refine ⟨fun c => if c = context then some (entropy r_dist) else cache c, ?_⟩
      simp only [apply_rna_model, hm, h]
      split <;> rfl
    | some e =>
      have he := hc e h
      refine ⟨cache, ?_⟩
      simp only [apply_rna_model, hm, h, he]
      split <;> rfl
  · intro s2 c2 cch a b c
    rfl

/-- Witness for C3 at a concrete model, context and empty cache. -/
theorem apply_rna_model_entropy_gate_witness :
    ((fun _ => some [1, 0] : RnaModel) [0] = some [1, 0])
    ∧ ((∃ cache2 : Cache,
        apply_rna_model [1/2, 1/2, 0] [0] (some (fun _ => some [1, 0])) (fun _ => none) 1 1 0
          = some (if entropy [1, 0] < 1 ∧ (1 : ℝ) > 0 then
              combine_dists [1, 0] [1/2, 1/2, 0] else [1/2, 1/2, 0], cache2))
      ∧ ∀ (s2 : List ℚ) (c2 : List ℕ) (cch : Cache) (a b c : ℝ),
          apply_rna_model s2 c2 none cch a b c = some (s2, cch)) :=
  ⟨rfl, apply_rna_model_entropy_gate _ _ _ _ _ _ _ _ rfl (fun _ h => nomatch h)⟩

/-! ### C4 — the blend preserves blank mass, non-blank mass and total mass -/

theorem sum_zipWith_add (a b : List ℚ) (h : a.length = b.length) :
    (List.zipWith (fun x y => x + y) a b).sum = a.sum + b.sum := by
  induction a generalizing b with
  | nil => cases b <;> simp_all
  | cons x xs ih =>
    cases b with
    | nil => simp at h
    | cons y ys =>
      simp only [List.zipWith_cons_cons, List.sum_cons, ih ys (by simpa using h)]
      ring

theorem sum_map_div (l : List ℚ) (c : ℚ) : (l.map (fun x => x / c)).sum = l.sum / c := by
  induction l with
  | nil => simp
  | cons x xs ih =>
    simp only [List.map_cons, List.sum_cons, ih]
    ring

theorem sum_map_mul (l : List ℚ) (c : ℚ) : (l.map (fun x => x * c)).sum = l.sum * c := by
  induction l with
  | nil => simp
  | cons x xs ih =>
    simp only [List.map_cons, List.sum_cons, ih]
    ring

/-- C4: whenever the blend is applied to a signal distribution
`s_init ++ [b]` (blank last) with positive-length model distribution of
matching length summing to `1` and nonzero non-blank signal mass, the fused
distribution keeps the blank channel exactly, keeps the non-blank mass, and
keeps the total mass; only the relative non-blank weights change. -/
theorem combine_dists_preserves_mass (s_init : List ℚ) (b : ℚ) (r_dist : List ℚ)
    (hlen : r_dist.length = s_init.length) (hr : r_dist.sum = 1) (hs : s_init.sum ≠ 0) :
    (combine_dists r_dist (s_init ++ [b])).getLast? = some b
    ∧ (combine_dists r_dist (s_init ++ [b])).dropLast.sum = s_init.sum
    ∧ (combine_dists r_dist (s_init ++ [b])).sum = (s_init ++ [b]).sum := by
  have hd : (s_init ++ [b]).dropLast = s_init := List.dropLast_concat
  have hlast : (s_init ++ [b]).getLastD 0 = b := by simp
  have hX : (((List.zipWith (fun a b => a + b) r_dist
      (s_init.map (fun x => x / s_init.sum))).map (fun x => x / 2)).map
        (fun x => x * s_init.sum)).sum = s_init.sum := by
    rw [sum_map_mul, sum_map_div, sum_zipWith_add _ _ (by simp [hlen]), hr, sum_map_div,
      div_self hs]
    ring
  have hX2 : ((List.zipWith (fun a b => a + b) r_dist
      (s_init.map (fun x => x / s_init.sum))).map
        ((fun x => x * s_init.sum) ∘ (fun x => x / 2))).sum = s_init.sum := by
    rw [← List.map_map]
    exact hX
  simp only [combine_dists, hd, hlast]
  refine ⟨by simp, ?_, ?_⟩
  · rw [List.dropLast_concat]
    exact hX
  · simp only [List.sum_append, List.map_map, List.sum_cons, List.sum_nil, hX2]

/-- Witness for C4 at a concrete blend. -/
theorem combine_dists_preserves_mass_witness :
    ([(1 : ℚ)/4, 3/4].length = [(1 : ℚ)/2, 1/4].length)
    ∧ ([(1 : ℚ)/4, 3/4].sum = 1) ∧ ([(1 : ℚ)/2, 1/4].sum ≠ 0)
    ∧ ((combine_dists [(1 : ℚ)/4, 3/4] ([(1 : ℚ)/2, 1/4] ++ [1/4])).getLast? = some (1/4)
      ∧ (combine_dists [(1 : ℚ)/4, 3/4] ([(1 : ℚ)/2, 1/4] ++ [1/4])).dropLast.sum
          = [(1 : ℚ)/2, 1/4].sum
      ∧ (combine_dists [(1 : ℚ)/4, 3/4] ([(1 : ℚ)/2, 1/4] ++ [1/4])).sum
          = ([(1 : ℚ)/2, 1/4] ++ [1/4]).sum) :=
  ⟨rfl, by norm_num, by norm_num,
    combine_dists_preserves_mass _ _ _ rfl (by norm_num) (by norm_num)⟩

/-! ### C8 — entropy: nonnegativity and the one-hot characterisation -/

theorem list_sum_nonpos (l : List ℝ) (h : ∀ x ∈ l, x ≤ 0) : l.sum ≤ 0 := by
  induction l with
  | nil => simp
  | cons x xs ih =>
    have hx := h x (by simp)
    have hs := ih (fun y hy => h y (by simp [hy]))
    simp only [List.sum_cons]
    linarith

theorem list_sum_zero_of_nonpos (l : List ℝ) (h : ∀ x ∈ l, x ≤ 0) :
    l.sum = 0 ↔ ∀ x ∈ l, x = 0 := by
  induction l with
  | nil => simp
  | cons x xs ih =>
    have hx := h x (by simp)
    have hs := list_sum_nonpos xs (fun y hy => h y (by simp [hy]))
    have ihs := ih (fun y hy => h y (by simp [hy]))
    simp only [List.sum_cons, List.mem_cons]
    constructor
    · intro hz
      have hx0 : x = 0 := by linarith
      have hxs : xs.sum = 0 := by linarith
      intro y hy
      rcases hy with hy | hy
      · simpa [hy] using hx0
      · exact ihs.mp hxs y hy
    · intro hall
      have hx0 : x = 0 := hall x (Or.inl rfl)
      have hxs : xs.sum = 0 := ihs.mpr (fun y hy => hall y (Or.inr hy))
      simp [hx0, hxs]

theorem sum_filter_ne_zero (d : List ℚ) :
    (d.filter (fun p => decide (p ≠ 0))).sum = d.sum := by
  induction d with
  | nil => rfl
  | cons x xs ih =>
    by_cases hx : x = 0
    · rw [List.filter_cons, if_neg (by simp [hx]), List.sum_cons, ih, hx, zero_add]
    · rw [List.filter_cons, if_pos (by simp [hx]), List.sum_cons, List.sum_cons, ih]

theorem filter_pos_eq_filter_ne (d : List ℚ) (h0 : ∀ p ∈ d, 0 ≤ p) :
    d.filter (fun p => decide (0 < p)) = d.filter (fun p => decide (p ≠ 0)) := by
  refine List.filter_congr ?_
  intro p hp
  have hle := h0 p hp
  by_cases hp0 : p = 0
  · subst hp0
    simp
  · have hlt : 0 < p := lt_of_le_of_ne hle (Ne.symm hp0)
    simp [hlt, hp0]

/-- C8 (counterexample): `entropy` is not nonnegative on every input: on
`[2]` (not a probability distribution, but a legal input of the function) it
is `-(2 * log 2) < 0`. -/
theorem entropy_counterexample : entropy [2] < 0 := by
  have hf : ([2] : List ℚ).filter (fun p => decide (0 < p)) = [2] := rfl
  have hlog : (0 : ℝ) < Real.log 2 := Real.log_pos (by norm_num)
  simp only [entropy, hf, List.map_cons, List.map_nil, List.sum_cons, List.sum_nil]
  have h2 : ((2 : ℚ) : ℝ) = 2 := by norm_num
  rw [h2]
  nlinarith

/-- C8 (amended): for inputs whose entries lie in `[0, 1]`, `entropy` is
nonnegative, and for genuine distributions (entries in `[0, 1]`, summing to
1) it vanishes exactly on one-hot distributions; zero-probability entries
are dropped by the filter, so a leading zero never contributes (no NaN). -/
theorem entropy_nonneg_iff_one_hot (d : List ℚ) (h0 : ∀ p ∈ d, 0 ≤ p) (h1 : ∀ p ∈ d, p ≤ 1) :
    0 ≤ entropy d ∧ (d.sum = 1 → (entropy d = 0 ↔ is_one_hot d))
    ∧ ∀ d2 : List ℚ, entropy (0 :: d2) = entropy d2 := by
  have hmem : ∀ p ∈ d.filter (fun p => decide (0 < p)), 0 < p ∧ p ≤ 1 := by
    intro p hp
    have h' := List.mem_filter.mp hp
    exact ⟨by simpa using h'.2, h1 p h'.1⟩
  have hterm : ∀ x ∈ (d.filter (fun p => decide (0 < p))).map
      (fun (p : ℚ) => (p : ℝ) * Real.log (p : ℝ)), x ≤ 0 := by
    intro x hx
    obtain ⟨p, hp, rfl⟩ := List.mem_map.mp hx
    obtain ⟨hp0, hp1⟩ := hmem p hp
    have hc0 : (0 : ℝ) ≤ (p : ℝ) := by exact_mod_cast le_of_lt hp0
    have hc1 : (p : ℝ) ≤ 1 := by exact_mod_cast hp1
    exact mul_nonpos_iff.mpr (Or.inl ⟨hc0, Real.log_nonpos hc0 hc1⟩)
  refine ⟨?_, ?_, ?_⟩
  · simp only [entropy, neg_nonneg]
    exact list_sum_nonpos _ hterm
  · intro hsum
    have hfeq := filter_pos_eq_filter_ne d h0
    have hzero : entropy d = 0 ↔ ∀ p ∈ d.filter (fun p => decide (0 < p)), p = 1 := by
      rw [entropy, neg_eq_zero, list_sum_zero_of_nonpos _ hterm]
      constructor
      · intro hall p hp
        obtain ⟨hp0, hp1⟩ := hmem p hp
        have := hall _ (List.mem_map.mpr ⟨p, hp, rfl⟩)
        have hpne : ((p : ℝ)) ≠ 0 := by
          exact_mod_cast ne_of_gt hp0
        have hlp := (mul_eq_zero.mp this).resolve_left hpne
        rcases Real.log_eq_zero.mp hlp with h | h | h
        · exact absurd h hpne
        · exact_mod_cast h
        · exfalso
          have : (0 : ℝ) < (p : ℝ) := by exact_mod_cast hp0
          rw [h] at this
          norm_num at this
      · intro hall x hx
        obtain ⟨p, hp, rfl⟩ := List.mem_map.mp hx
        have hp1 := hall p hp
        simp [hp1]
    rw [hzero]
    constructor
    · intro hall
      have hrep := List.eq_replicate_of_mem hall
      have hsumf : (d.filter (fun p => decide (0 < p))).sum = 1 := by
        rw [hfeq, sum_filter_ne_zero, hsum]
      have hlen : ((d.filter (fun p => decide (0 < p))).length : ℚ) = 1 := by
        rw [hrep] at hsumf
        simpa using hsumf
      have hlen1 : (d.filter (fun p => decide (0 < p))).length = 1 := by
        exact_mod_cast hlen
      have : d.filter (fun p => decide (0 < p)) = [1] := by
        rw [hrep, hlen1]
        rfl
      rw [is_one_hot, ← hfeq, this]
    · intro hone
      rw [is_one_hot] at hone
      rw [hfeq, hone]
      intro p hp
      simpa using hp
  · intro d2
    have hz : ¬ (0 : ℚ) < 0 := lt_irrefl 0
    simp [entropy, List.filter_cons, hz]

/-- Witness for the amended C8: the distribution `[1, 0]`. -/
theorem entropy_nonneg_iff_one_hot_witness :
    (∀ p ∈ ([1, 0] : List ℚ), 0 ≤ p) ∧ (∀ p ∈ ([1, 0] : List ℚ), p ≤ 1)
    ∧ (0 ≤ entropy [1, 0] ∧ (([1, 0] : List ℚ).sum = 1 →
        (entropy [1, 0] = 0 ↔ is_one_hot [1, 0]))
      ∧ ∀ d2 : List ℚ, entropy (0 :: d2) = entropy d2) := by
  have h0 : ∀ p ∈ ([1, 0] : List ℚ), 0 ≤ p := by
    intro p hp
    rcases List.mem_cons.mp hp with h | h
    · norm_num [h]
    · simp at h
      norm_num [h]
  have h1 : ∀ p ∈ ([1, 0] : List ℚ), p ≤ 1 := by
    intro p hp
    rcases List.mem_cons.mp hp with h | h
    · norm_num [h]
    · simp at h
      norm_num [h]
  exact ⟨h0, h1, entropy_nonneg_iff_one_hot [1, 0] h0 h1⟩

/-! ### C1 — the EXTEND transition -/

theorem append_singleton_ne (l : List ℕ) (c c2 : ℕ) (h : c ≠ c2) : l ++ [c] ≠ l ++ [c2] := by
  intro he
  exact h (by simpa using List.append_cancel_left he)

theorem getEntry_extend_fold_not_mem (prev : BeamList) (dist : List ℚ) (l : Labeling)
    (cs : List ℕ) (curr : BeamList) (K : Labeling) (hK : ∀ c ∈ cs, K ≠ l ++ [c]) :
    getEntry (cs.foldl (fun cur c2 => extend_symbol prev dist l c2 cur) curr) K
      = getEntry curr K := by
  induction cs generalizing curr with
  | nil => rfl
  | cons c2 cs2 ih =>
    rw [List.foldl_cons, ih _ (fun c h => hK c (by simp [h]))]
    exact getEntry_updateEntry_ne _ _ _ _ (hK c2 (by simp))

theorem getEntry_extend_fold (prev : BeamList) (dist : List ℚ) (l : Labeling) (cs : List ℕ)
    (curr : BeamList) (c : ℕ) (hc : c ∈ cs) (hnd : cs.Nodup) :
    getEntry (cs.foldl (fun cur c2 => extend_symbol prev dist l c2 cur) curr) (l ++ [c])
      = extend_mod (l ++ [c]) (ext_contrib dist prev l c) (getEntry curr (l ++ [c])) := by
  induction cs generalizing curr with
  | nil => cases hc
  | cons c2 cs2 ih =>
    rw [List.foldl_cons]
    rcases List.mem_cons.mp hc with hceq | hmem
    · subst hceq
      have hnot : c ∉ cs2 := (List.nodup_cons.mp hnd).1
      rw [getEntry_extend_fold_not_mem prev dist l cs2 _ (l ++ [c])
        (fun c3 h3 => append_singleton_ne l c c3 (fun he => hnot (he ▸ h3)))]
      exact getEntry_updateEntry_self _ _ _
    · have hne : c ≠ c2 := by
        intro he
        exact (List.nodup_cons.mp hnd).1 (he ▸ hmem)
      rw [ih _ hmem (List.nodup_cons.mp hnd).2, extend_symbol,
        getEntry_updateEntry_ne _ _ _ _ (append_singleton_ne l c c2 hne)]

theorem pr_blank_extend_fold (prev : BeamList) (dist : List ℚ) (l : Labeling) (cs : List ℕ)
    (curr : BeamList) (K : Labeling) :
    (getEntry (cs.foldl (fun cur c2 => extend_symbol prev dist l c2 cur) curr) K).pr_blank
      = (getEntry curr K).pr_blank := by
  induction cs generalizing curr with
  | nil => rfl
  | cons c2 cs2 ih =>
    rw [List.foldl_cons, ih]
    by_cases hK : K = l ++ [c2]
    · subst hK
      rw [extend_symbol, getEntry_updateEntry_self]
      rfl
    · rw [extend_symbol, getEntry_updateEntry_ne _ _ _ _ hK]

/-- C1: in the EXTEND transition, for every labeling `l`, candidate non-blank
symbol `c` and accumulating state, the mass contributed to the new entry for
`l ++ [c]` is the previous `pr_blank` of `l` scaled by `dist[c]` when `c`
duplicates `l`'s last symbol, and the previous `pr_total` of `l` scaled by
`dist[c]` otherwise; it is accumulated into both `pr_non_blank` and
`pr_total` of `l ++ [c]`, and no entry's `pr_blank` is touched.  (Linear
domain: `+ log(dist[c])` is `* dist[c]` and `logaddexp` is `+`.) -/
theorem extend_transition (prev : BeamList) (pr_dist : List ℚ) (l : Labeling) (chars : ℕ)
    (curr : BeamList) (c : ℕ) (hc : c < chars - 1) :
    ((getEntry (extend_all prev pr_dist l chars curr) (l ++ [c])).pr_non_blank
        = (getEntry curr (l ++ [c])).pr_non_blank
          + (if l.getLast? = some c then (getEntry prev l).pr_blank
            else (getEntry prev l).pr_total) * pr_dist.getD c 0)
    ∧ ((getEntry (extend_all prev pr_dist l chars curr) (l ++ [c])).pr_total
        = (getEntry curr (l ++ [c])).pr_total
          + (if l.getLast? = some c then (getEntry prev l).pr_blank
            else (getEntry prev l).pr_total) * pr_dist.getD c 0)
    ∧ ∀ K, (getEntry (extend_all prev pr_dist l chars curr) K).pr_blank
        = (getEntry curr K).pr_blank := by
  have h := getEntry_extend_fold prev pr_dist l (List.range (chars - 1)) curr c
    (List.mem_range.mpr hc) (List.nodup_range _)
  refine ⟨?_, ?_, ?_⟩
  · rw [extend_all, h]
    rfl
  · rw [extend_all, h]
    rfl
  · intro K
    exact pr_blank_extend_fold prev pr_dist l _ curr K

/-- Witness for C1 at a concrete state and symbol. -/
theorem extend_transition_witness :
    (0 < 3 - 1)
    ∧ (((getEntry (extend_all [] [5, 7, 11] [] 3 []) ([] ++ [0])).pr_non_blank
        = (getEntry [] ([] ++ [0])).pr_non_blank
          + (if ([] : Labeling).getLast? = some 0 then (getEntry [] []).pr_blank
            else (getEntry [] []).pr_total) * ([5, 7, 11] : List ℚ).getD 0 0)
      ∧ (((getEntry (extend_all [] [5, 7, 11] [] 3 []) ([] ++ [0])).pr_total
        = (getEntry [] ([] ++ [0])).pr_total
          + (if ([] : Labeling).getLast? = some 0 then (getEntry [] []).pr_blank
            else (getEntry [] []).pr_total) * ([5, 7, 11] : List ℚ).getD 0 0))
      ∧ ∀ K, (getEntry (extend_all [] [5, 7, 11] [] 3 []) K).pr_blank
        = (getEntry [] K).pr_blank) :=
  ⟨by decide, extend_transition [] [5, 7, 11] [] 3 [] 0 (by decide)⟩

/-! ### C2 — the `pr_total = logaddexp(pr_blank, pr_non_blank)` invariant -/

theorem default_entry_balanced : entry_balanced default_entry := by
  simp [entry_balanced, default_entry]

theorem copy_mod_balanced (l : Labeling) (pb pnb : ℚ) (e : BeamEntry)
    (he : entry_balanced e) : entry_balanced (copy_mod l pb pnb e) := by
  simp only [entry_balanced, copy_mod] at he ⊢
  rw [he]
  ring

theorem extend_mod_balanced (nl : Labeling) (pnb : ℚ) (e : BeamEntry)
    (he : entry_balanced e) : entry_balanced (extend_mod nl pnb e) := by
  simp only [entry_balanced, extend_mod] at he ⊢
  rw [he]
  ring

theorem updateEntry_total_invariant (bl : BeamList) (l : Labeling) (f : BeamEntry → BeamEntry)
    (hf : ∀ e, entry_balanced e → entry_balanced (f e)) (hbl : total_invariant bl) :
    total_invariant (updateEntry bl l f) := by
  induction bl with
  | nil =>
    intro p hp
    simp only [updateEntry, List.mem_singleton] at hp
    subst hp
    exact hf _ default_entry_balanced
  | cons q rest ih =>
    obtain ⟨k, e⟩ := q
    have hke : entry_balanced e := hbl (k, e) (by simp)
    have hrest : total_invariant rest := by
      intro p hp
      exact hbl p (by simp [hp])
    by_cases hk : k = l
    · subst hk
      intro p hp
      simp only [updateEntry, eq_self_iff_true, if_true, List.mem_cons] at hp
      rcases hp with hp | hp
      · subst hp
        exact hf _ hke
      · exact hrest p hp
    · intro p hp
      simp only [updateEntry, if_neg hk, List.mem_cons] at hp
      rcases hp with hp | hp
      · subst hp
        exact hke
      · exact ih hrest p hp

theorem extend_fold_total_invariant (prev : BeamList) (dist : List ℚ) (l : Labeling)
    (cs : List ℕ) (curr : BeamList) (hcur : total_invariant curr) :
    total_invariant (cs.foldl (fun cur c2 => extend_symbol prev dist l c2 cur) curr) := by
  induction cs generalizing curr with
  | nil => exact hcur
  | cons c2 cs2 ih =>
    rw [List.foldl_cons]
    exact ih _ (updateEntry_total_invariant _ _ _
      (fun e he => extend_mod_balanced _ _ e he) hcur)

theorem process_labeling_shape (lm : Option RnaModel) (sThr rThr : ℝ) (lc bi ch : ℕ)
    (prev : BeamList) (row : List ℚ) (sEnt : ℝ) (cur : BeamList × Cache) (l : Labeling)
    (out : BeamList × Cache)
    (h : process_labeling lm sThr rThr lc bi ch prev row sEnt cur l = some out) :
    ∃ pd pnbC, out.1 = extend_all prev pd l ch
      (updateEntry cur.1 l (copy_mod l (copy_pb row bi prev l) pnbC)) := by
  unfold process_labeling at h
  cases hl : l.getLast? with
  | none =>
    rw [hl] at h
    simp only [Option.bind_eq_bind, Option.some_bind] at h
    split at h
    · rcases Option.bind_eq_some.mp h with ⟨pd2, hpd2, h2⟩
      simp only [Option.some.injEq] at h2
      exact ⟨pd2.1, 0, by rw [← h2]⟩
    · simp only [Option.some_bind, Option.some.injEq] at h
      exact ⟨row, 0, by rw [← h]⟩
  | some x =>
    rw [hl] at h
    simp only [Option.bind_eq_bind] at h
    split at h
    · rcases Option.bind_eq_some.mp h with ⟨pd, hpd, h2⟩
      simp only [Option.some_bind] at h2
      split at h2
      · rcases Option.bind_eq_some.mp h2 with ⟨pd2, hpd2, h3⟩
        simp only [Option.some.injEq] at h3
        exact ⟨pd2.1, (getEntry prev l).pr_non_blank * pd.1.getD x 0, by rw [← h3]⟩
      · simp only [Option.some_bind, Option.some.injEq] at h2
        exact ⟨row, (getEntry prev l).pr_non_blank * pd.1.getD x 0, by rw [← h2]⟩
    · simp only [Option.some_bind] at h
      split at h
      · rcases Option.bind_eq_some.mp h with ⟨pd2, hpd2, h3⟩
        simp only [Option.some.injEq] at h3
        exact ⟨pd2.1, (getEntry prev l).pr_non_blank * row.getD x 0, by rw [← h3]⟩
      · simp only [Option.some_bind, Option.some.injEq] at h
        exact ⟨row, (getEntry prev l).pr_non_blank * row.getD x 0, by rw [← h]⟩

theorem process_labeling_total_invariant (lm : Option RnaModel) (sThr rThr : ℝ)
    (lc bi ch : ℕ) (prev : BeamList) (row : List ℚ) (sEnt : ℝ) (cur : BeamList × Cache)
    (l : Labeling) (out : BeamList × Cache)
    (h : process_labeling lm sThr rThr lc bi ch prev row sEnt cur l = some out)
    (hcur : total_invariant cur.1) : total_invariant out.1 := by
  obtain ⟨pd, pnbC, hout⟩ := process_labeling_shape lm sThr rThr lc bi ch prev row sEnt cur l
    out h
  rw [hout, extend_all]
  exact extend_fold_total_invariant _ _ _ _ _
    (updateEntry_total_invariant _ _ _ (fun e he => copy_mod_balanced _ _ _ e he) hcur)

theorem foldlM_process_total_invariant (lm : Option RnaModel) (sThr rThr : ℝ)
    (lc bi ch : ℕ) (prev : BeamList) (row : List ℚ) (sEnt : ℝ) (sel : List Labeling)
    (cur : BeamList × Cache) (out : BeamList × Cache)
    (h : sel.foldlM (process_labeling lm sThr rThr lc bi ch prev row sEnt) cur = some out)
    (hcur : total_invariant cur.1) : total_invariant out.1 := by
  induction sel generalizing cur with
  | nil =>
    simp only [List.foldlM_nil, Option.pure_def, Option.some.injEq] at h
    rw [← h]
    exact hcur
  | cons x xs ih =>
    rw [List.foldlM_cons] at h
    rcases Option.bind_eq_some.mp h with ⟨mid, hmid, h2⟩
    exact ih _ h2 (process_labeling_total_invariant lm sThr rThr lc bi ch prev row sEnt cur x
      mid hmid hcur)

/-- C2: after processing any timestep, every labeling of the resulting beam
state satisfies `pr_total = pr_blank + pr_non_blank` (the linear-domain image
of `pr_total = logaddexp(pr_blank, pr_non_blank)`), exactly in rational
arithmetic, whether the entry received COPY contributions, EXTEND
contributions, or both; and the initial state — the empty labeling with
`pr_blank = pr_total = log 1 = 1` and `pr_non_blank = log 0 = 0` — satisfies
it as well. -/
theorem beam_state_total_invariant :
    total_invariant init_state
    ∧ init_state = [([], ⟨1, 0, 1, []⟩)]
    ∧ ∀ (lm : Option RnaModel) (sThr rThr : ℝ) (lc bi ch w : ℕ) (stc : BeamList × Cache)
        (rowE : List ℚ × ℝ),
        total_invariant (state_of (beam_step lm sThr rThr lc bi ch w stc rowE)) := by
  refine ⟨?_, rfl, ?_⟩
  · intro p hp
    simp only [init_state, List.mem_singleton] at hp
    subst hp
    simp [entry_balanced]
  · intro lm sThr rThr lc bi ch w stc rowE
    cases h : beam_step lm sThr rThr lc bi ch w stc rowE with
    | none =>
      intro p hp
      simp [state_of, h] at hp
    | some out =>
      have h2 := h
      rw [beam_step] at h2
      have hinv : total_invariant out.1 :=
        foldlM_process_total_invariant lm sThr rThr lc bi ch stc.1 rowE.1 rowE.2 _ _ _ h2
          (by intro p hp; cases hp)
      simpa [state_of, h] using hinv

/-- Witness for C2: the invariant of the state after one concrete timestep. -/
theorem beam_state_total_invariant_witness :
    total_invariant (state_of (beam_step none 0 0 0 2 3 2 (init_state, fun _ => none)
      ([1/2, 1/4, 1/4], 0))) :=
  beam_state_total_invariant.2.2 none 0 0 0 2 3 2 (init_state, fun _ => none)
    ([1/2, 1/4, 1/4], 0)

/-! ### C10 — the unguarded division in `combine_dists` -/

/-- C10: `combine_dists` divides by the signal's non-blank mass with no zero
guard: under the precondition that this mass is nonzero the division is safe
(the checked variant succeeds and agrees with the exact rational result, so
no NaN arises); when the mass is zero there is, unlike `normalise`, no
pass-through branch — the division fails — while `normalise` returns a
zero-sum vector unchanged. -/
theorem combine_dists_no_zero_guard :
    (∀ r s : List ℚ, s.dropLast.sum ≠ 0 → combine_dists_checked r s = some (combine_dists r s))
    ∧ (∀ r s : List ℚ, s.dropLast.sum = 0 → combine_dists_checked r s = none)
    ∧ ∀ d : List ℚ, d.sum = 0 → normalise d = d := by
  refine ⟨?_, ?_, ?_⟩
  · intro r s h
    simp [combine_dists_checked, h]
  · intro r s h
    simp [combine_dists_checked, h]
  · intro d h
    simp [normalise, h]

/-- Witness for C10: a safe call, a zero-mass failing call, and the
`normalise` pass-through, each at concrete inputs. -/
theorem combine_dists_no_zero_guard_witness :
    (([(1 : ℚ)/2, 1/2, 0].dropLast.sum ≠ 0)
      ∧ combine_dists_checked [1, 0] [(1 : ℚ)/2, 1/2, 0]
          = some (combine_dists [1, 0] [(1 : ℚ)/2, 1/2, 0]))
    ∧ (([(0 : ℚ), 0, 1].dropLast.sum = 0) ∧ combine_dists_checked [1, 0] [(0 : ℚ), 0, 1] = none)
    ∧ (([(0 : ℚ), 0].sum = 0) ∧ normalise [(0 : ℚ), 0] = [(0 : ℚ), 0]) :=
  ⟨⟨by norm_num, combine_dists_no_zero_guard.1 _ _ (by norm_num)⟩,
    ⟨by norm_num, combine_dists_no_zero_guard.2.1 _ _ (by norm_num)⟩,
    ⟨by norm_num, combine_dists_no_zero_guard.2.2 _ (by norm_num)⟩⟩

/-! ### Sorting toolkit for the beam-width analysis -/

theorem insert_desc_perm (e : BeamEntry) (l : List BeamEntry) :
    (insert_desc e l).Perm (e :: l) := by
  induction l with
  | nil => exact List.Perm.refl _
  | cons b rest ih =>
    rw [insert_desc]
    by_cases h : e.pr_total ≤ b.pr_total
    · rw [if_pos h]
      exact (ih.cons b).trans (List.Perm.swap e b rest)
    · rw [if_neg h]

theorem sort_fold_perm (l : List BeamEntry) (acc : List BeamEntry) :
    (l.foldl (fun acc e => insert_desc e acc) acc).Perm (l ++ acc) := by
  induction l generalizing acc with
  | nil => exact List.Perm.refl _
  | cons e rest ih =>
    rw [List.foldl_cons]
    exact (ih (insert_desc e acc)).trans
      ((List.Perm.append_left rest (insert_desc_perm e acc)).trans List.perm_middle)

theorem sort_entries_desc_perm (l : List BeamEntry) : (sort_entries_desc l).Perm l := by
  have h := sort_fold_perm l []
  simpa [sort_entries_desc] using h

theorem insert_desc_pairwise (e : BeamEntry) (l : List BeamEntry)
    (h : l.Pairwise (fun a b => b.pr_total ≤ a.pr_total)) :
    (insert_desc e l).Pairwise (fun a b => b.pr_total ≤ a.pr_total) := by
  induction l with
  | nil => simp [insert_desc]
  | cons b rest ih =>
    rcases List.pairwise_cons.mp h with ⟨hb, hrest⟩
    rw [insert_desc]
    by_cases hle : e.pr_total ≤ b.pr_total
    · rw [if_pos hle]
      refine List.pairwise_cons.mpr ⟨?_, ih hrest⟩
      intro x hx
      rcases List.mem_cons.mp ((insert_desc_perm e rest).mem_iff.mp hx) with h1 | h1
      · rw [h1]
        exact hle
      · exact hb x h1
    · rw [if_neg hle]
      push_neg at hle
      refine List.pairwise_cons.mpr ⟨?_, h⟩
      intro x hx
      rcases List.mem_cons.mp hx with h1 | h1
      · rw [h1]
        exact le_of_lt hle
      · exact le_trans (hb x h1) (le_of_lt hle)

theorem sort_fold_pairwise (l : List BeamEntry) (acc : List BeamEntry)
    (hacc : acc.Pairwise (fun a b => b.pr_total ≤ a.pr_total)) :
    (l.foldl (fun acc e => insert_desc e acc) acc).Pairwise
      (fun a b => b.pr_total ≤ a.pr_total) := by
  induction l generalizing acc with
  | nil => exact hacc
  | cons e rest ih =>
    rw [List.foldl_cons]
    exact ih _ (insert_desc_pairwise e acc hacc)

theorem sort_entries_desc_pairwise (l : List BeamEntry) :
    (sort_entries_desc l).Pairwise (fun a b => b.pr_total ≤ a.pr_total) :=
  sort_fold_pairwise l [] (List.Pairwise.nil)

theorem le_best_total (bl : BeamList) (e : BeamEntry) (he : e ∈ bl.map Prod.snd) :
    e.pr_total ≤ best_total bl := by
  have hperm := sort_entries_desc_perm (bl.map Prod.snd)
  have hmem : e ∈ sort_entries_desc (bl.map Prod.snd) := hperm.mem_iff.mpr he
  have hpw := sort_entries_desc_pairwise (bl.map Prod.snd)
  rw [best_total]
  cases hs : sort_entries_desc (bl.map Prod.snd) with
  | nil =>
    rw [hs] at hmem
    cases hmem
  | cons hd t =>
    rw [hs] at hmem hpw
    simp only [List.headD_cons]
    rcases List.mem_cons.mp hmem with h1 | h1
    · rw [h1]
    · exact (List.pairwise_cons.mp hpw).1 e h1

theorem best_total_nonneg (bl : BeamList) (h : ∀ p ∈ bl, 0 ≤ (Prod.snd p).pr_total) :
    0 ≤ best_total bl := by
  rw [best_total]
  cases hs : sort_entries_desc (bl.map Prod.snd) with
  | nil => simp [default_entry]
  | cons hd t =>
    have hmem : hd ∈ bl.map Prod.snd := by
      have := (sort_entries_desc_perm (bl.map Prod.snd)).mem_iff.mp
        (by rw [hs]; exact List.mem_cons_self hd t)
      exact this
    obtain ⟨p, hp, he⟩ := List.mem_map.mp hmem
    simp only [List.headD_cons]
    rw [← he]
    exact h p hp

theorem keys_nodup_cons (k1 : Labeling) (e1 : BeamEntry) (rest : BeamList) :
    KeysNodup ((k1, e1) :: rest) ↔ (k1 ∉ rest.map Prod.fst) ∧ KeysNodup rest := by
  rw [KeysNodup, KeysNodup, List.map_cons, List.nodup_cons]

theorem findEntry_of_mem (bl : BeamList) (hnd : KeysNodup bl) (k : Labeling) (e : BeamEntry)
    (hmem : (k, e) ∈ bl) : findEntry bl k = some e := by
  induction bl with
  | nil => cases hmem
  | cons q rest ih =>
    obtain ⟨k1, e1⟩ := q
    rcases (keys_nodup_cons k1 e1 rest).mp hnd with ⟨hk1, hrest⟩
    rcases List.mem_cons.mp hmem with h1 | h1
    · have hkk : k = k1 := congrArg Prod.fst h1
      have hee : e = e1 := congrArg Prod.snd h1
      rw [findEntry, if_pos hkk.symm, ← hee]
    · by_cases hk : k1 = k
      · exfalso
        subst hk
        exact hk1 (List.mem_map.mpr ⟨(k1, e), h1, rfl⟩)
      · rw [findEntry, if_neg hk]
        exact ih hrest h1

theorem getEntry_of_mem (bl : BeamList) (hnd : KeysNodup bl) (k : Labeling) (e : BeamEntry)
    (hmem : (k, e) ∈ bl) : getEntry bl k = e := by
  rw [getEntry, findEntry_of_mem bl hnd k e hmem]
  rfl

theorem mem_keys_updateEntry (bl : BeamList) (k K : Labeling) (f : BeamEntry → BeamEntry) :
    K ∈ (updateEntry bl k f).map Prod.fst ↔ K = k ∨ K ∈ bl.map Prod.fst := by
  induction bl with
  | nil => simp [updateEntry, eq_comm]
  | cons q rest ih =>
    obtain ⟨k1, e1⟩ := q
    by_cases hk : k1 = k
    · subst hk
      simp only [updateEntry, eq_self_iff_true, if_true, List.map_cons, List.mem_cons]
      constructor
      · intro h
        rcases h with h | h
        · exact Or.inl h
        · exact Or.inr (Or.inr h)
      · intro h
        rcases h with h | h | h
        · exact Or.inl h
        · exact Or.inl h
        · exact Or.inr h
    · simp only [updateEntry, if_neg hk, List.map_cons, List.mem_cons, ih]
      tauto

theorem keys_nodup_updateEntry (bl : BeamList) (k : Labeling) (f : BeamEntry → BeamEntry)
    (h : KeysNodup bl) : KeysNodup (updateEntry bl k f) := by
  induction bl with
  | nil => simp [KeysNodup, updateEntry]
  | cons q rest ih =>
    obtain ⟨k1, e1⟩ := q
    rcases (keys_nodup_cons k1 e1 rest).mp h with ⟨hk1, hrest⟩
    by_cases hk : k1 = k
    · subst hk
      rw [updateEntry, if_pos rfl]
      exact (keys_nodup_cons k1 (f e1) rest).mpr ⟨hk1, hrest⟩
    · rw [updateEntry, if_neg hk]
      refine (keys_nodup_cons k1 e1 (updateEntry rest k f)).mpr ⟨?_, ih hrest⟩
      intro hmem
      rcases (mem_keys_updateEntry rest k k1 f).mp hmem with h1 | h1
      · exact hk h1
      · exact hk1 h1

theorem labels_match_updateEntry (bl : BeamList) (k : Labeling) (f : BeamEntry → BeamEntry)
    (hb : LabelsMatch bl) (hf : ∀ e, (f e).labeling = k) :
    LabelsMatch (updateEntry bl k f) := by
  induction bl with
  | nil =>
    intro p hp
    simp only [updateEntry, List.mem_singleton] at hp
    rw [hp]
    exact hf _
  | cons q rest ih =>
    obtain ⟨k1, e1⟩ := q
    have hq : e1.labeling = k1 := hb (k1, e1) (by simp)
    have hrest : LabelsMatch rest := by
      intro p hp
      exact hb p (by simp [hp])
    by_cases hk : k1 = k
    · subst hk
      intro p hp
      simp only [updateEntry, eq_self_iff_true, if_true, List.mem_cons] at hp
      rcases hp with hp | hp
      · rw [hp]
        exact hf _
      · exact hrest p hp
    · intro p hp
      simp only [updateEntry, if_neg hk, List.mem_cons] at hp
      rcases hp with hp | hp
      · rw [hp]
        exact hq
      · exact ih hrest p hp

/-! ### Per-timestep additive characterisation (no-model path) -/

theorem append_singleton_eq_iff (l : List ℕ) (c c2 : ℕ) : l ++ [c] = l ++ [c2] ↔ c = c2 := by
  constructor
  · intro h
    simpa using List.append_cancel_left h
  · intro h
    rw [h]

theorem sum_map_ite_eq (c : ℕ) (cs : List ℕ) (g : ℕ → ℚ) (hc : c ∈ cs) (hnd : cs.Nodup) :
    (cs.map (fun c2 => if c = c2 then g c2 else 0)).sum = g c := by
  induction cs with
  | nil => cases hc
  | cons c2 rest ih =>
    rcases List.mem_cons.mp hc with h1 | h1
    · subst h1
      rw [List.map_cons, List.sum_cons, if_pos rfl]
      have hnot : c ∉ rest := (List.nodup_cons.mp hnd).1
      have hzero : (rest.map (fun c3 => if c = c3 then g c3 else 0)).sum = 0 := by
        refine List.sum_eq_zero ?_
        intro x hx
        obtain ⟨c3, hc3, rfl⟩ := List.mem_map.mp hx
        rw [if_neg (fun (he : c = c3) => hnot (he ▸ hc3))]
      rw [hzero, add_zero]
    · have hne : c ≠ c2 := fun he => (List.nodup_cons.mp hnd).1 (he ▸ h1)
      rw [List.map_cons, List.sum_cons, if_neg hne, zero_add]
      exact ih h1 (List.nodup_cons.mp hnd).2

theorem getEntry_process_pure (row : List ℚ) (bi ch : ℕ) (prev curr : BeamList)
    (l K : Labeling) :
    ((getEntry (process_labeling_pure row bi ch prev curr l) K).pr_total
        = (getEntry curr K).pr_total + (delta_entry row bi ch prev l K).1)
    ∧ ((getEntry (process_labeling_pure row bi ch prev curr l) K).pr_non_blank
        = (getEntry curr K).pr_non_blank + (delta_entry row bi ch prev l K).2.1)
    ∧ ((getEntry (process_labeling_pure row bi ch prev curr l) K).pr_blank
        = (getEntry curr K).pr_blank + (delta_entry row bi ch prev l K).2.2) := by
  by_cases hKl : K = l
  · subst hKl
    have hne : ∀ c ∈ List.range (ch - 1), K ≠ K ++ [c] := by
      intro c hc he
      have hlen := congrArg List.length he
      simp at hlen
    have hext : ((List.range (ch - 1)).map
        (fun c => if K = K ++ [c] then ext_contrib row prev K c else 0)).sum = 0 := by
      refine List.sum_eq_zero ?_
      intro x hx
      obtain ⟨c3, hc3, rfl⟩ := List.mem_map.mp hx
      rw [if_neg (hne c3 hc3)]
    rw [process_labeling_pure, extend_all,
      getEntry_extend_fold_not_mem _ _ _ _ _ _ hne, getEntry_updateEntry_self]
    refine ⟨?_, ?_, ?_⟩ <;>
      simp [delta_entry, copy_mod, hext]
  · by_cases hKe : ∃ c ∈ List.range (ch - 1), K = l ++ [c]
    · obtain ⟨c, hc, rfl⟩ := hKe
      have h := getEntry_extend_fold prev row l (List.range (ch - 1))
        (updateEntry curr l (copy_mod l (copy_pb row bi prev l) (copy_pnb row prev l)))
        c hc (List.nodup_range _)
      have hext : ((List.range (ch - 1)).map
          (fun c2 => if c = c2 then ext_contrib row prev l c2 else 0)).sum
          = ext_contrib row prev l c :=
        sum_map_ite_eq c (List.range (ch - 1)) _ hc (List.nodup_range _)
      rw [process_labeling_pure, extend_all, h, getEntry_updateEntry_ne _ _ _ _ hKl]
      refine ⟨?_, ?_, ?_⟩ <;>
        simp [delta_entry, extend_mod, hext, if_neg hKl]
    · push_neg at hKe
      have hne : ∀ c ∈ List.range (ch - 1), K ≠ l ++ [c] := hKe
      have hext : ((List.range (ch - 1)).map
          (fun c => if K = l ++ [c] then ext_contrib row prev l c else 0)).sum = 0 := by
        refine List.sum_eq_zero ?_
        intro x hx
        obtain ⟨c3, hc3, rfl⟩ := List.mem_map.mp hx
        rw [if_neg (hne c3 hc3)]
      rw [process_labeling_pure, extend_all,
        getEntry_extend_fold_not_mem _ _ _ _ _ _ hne, getEntry_updateEntry_ne _ _ _ _ hKl]
      refine ⟨?_, ?_, ?_⟩ <;>
        simp [delta_entry, hext, if_neg hKl]

theorem getEntry_step_fold (row : List ℚ) (bi ch : ℕ) (prev : BeamList)
    (sel : List Labeling) (curr : BeamList) (K : Labeling) :
    ((getEntry (sel.foldl (process_labeling_pure row bi ch prev) curr) K).pr_total
        = (getEntry curr K).pr_total
          + (sel.map (fun l => (delta_entry row bi ch prev l K).1)).sum)
    ∧ ((getEntry (sel.foldl (process_labeling_pure row bi ch prev) curr) K).pr_non_blank
        = (getEntry curr K).pr_non_blank
          + (sel.map (fun l => (delta_entry row bi ch prev l K).2.1)).sum)
    ∧ ((getEntry (sel.foldl (process_labeling_pure row bi ch prev) curr) K).pr_blank
        = (getEntry curr K).pr_blank
          + (sel.map (fun l => (delta_entry row bi ch prev l K).2.2)).sum) := by
  induction sel generalizing curr with
  | nil => simp
  | cons l rest ih =>
    rw [List.foldl_cons]
    obtain ⟨h1, h2, h3⟩ := ih (process_labeling_pure row bi ch prev curr l)
    obtain ⟨g1, g2, g3⟩ := getEntry_process_pure row bi ch prev curr l K
    refine ⟨?_, ?_, ?_⟩ <;>
      simp [h1, h2, h3, g1, g2, g3] <;> ring

theorem getEntry_step_pure (row : List ℚ) (bi ch w : ℕ) (prev : BeamList) (K : Labeling) :
    ((getEntry (step_pure row bi ch w prev) K).pr_total
        = (((sort_labelings prev).take w).map
            (fun l => (delta_entry row bi ch prev l K).1)).sum)
    ∧ ((getEntry (step_pure row bi ch w prev) K).pr_non_blank
        = (((sort_labelings prev).take w).map
            (fun l => (delta_entry row bi ch prev l K).2.1)).sum)
    ∧ ((getEntry (step_pure row bi ch w prev) K).pr_blank
        = (((sort_labelings prev).take w).map
            (fun l => (delta_entry row bi ch prev l K).2.2)).sum) := by
  obtain ⟨h1, h2, h3⟩ := getEntry_step_fold row bi ch prev ((sort_labelings prev).take w) [] K
  rw [step_pure]
  refine ⟨?_, ?_, ?_⟩
  · rw [h1]
    simp [getEntry, findEntry, default_entry]
  · rw [h2]
    simp [getEntry, findEntry, default_entry]
  · rw [h3]
    simp [getEntry, findEntry, default_entry]

/-! ### Contribution bounds and key tracking -/

theorem getD_nonneg (row : List ℚ) (h : ∀ x ∈ row, 0 ≤ x) (i : ℕ) : 0 ≤ row.getD i 0 := by
  induction row generalizing i with
  | nil => simp [List.getD]
  | cons x xs ih =>
    cases i with
    | zero => simpa using h x (by simp)
    | succ n =>
      simp only [List.getD_cons_succ]
      exact ih (fun y hy => h y (by simp [hy])) n

theorem delta_nonneg (row : List ℚ) (bi ch : ℕ) (prev : BeamList) (l K : Labeling)
    (hrow : ∀ x ∈ row, 0 ≤ x) (hprev : StateNonneg prev) :
    0 ≤ (delta_entry row bi ch prev l K).1
    ∧ 0 ≤ (delta_entry row bi ch prev l K).2.1
    ∧ 0 ≤ (delta_entry row bi ch prev l K).2.2 := by
  obtain ⟨ht, hnb, hb⟩ := hprev l
  have hrowD := getD_nonneg row hrow
  have hpb : 0 ≤ copy_pb row bi prev l := mul_nonneg ht (hrowD bi)
  have hpnb : 0 ≤ copy_pnb row prev l := by
    rw [copy_pnb]
    cases l.getLast? with
    | none => exact le_refl 0
    | some x => exact mul_nonneg hnb (hrowD x)
  have hextc : ∀ c, 0 ≤ ext_contrib row prev l c := by
    intro c
    rw [ext_contrib]
    refine mul_nonneg ?_ (hrowD c)
    split
    · exact hb
    · exact ht
  have hsum : 0 ≤ ((List.range (ch - 1)).map
      (fun c => if K = l ++ [c] then ext_contrib row prev l c else 0)).sum := by
    refine List.sum_nonneg ?_
    intro x hx
    obtain ⟨c, _, rfl⟩ := List.mem_map.mp hx
    split
    · exact hextc c
    · exact le_refl 0
  refine ⟨?_, ?_, ?_⟩ <;> rw [delta_entry]
  · refine add_nonneg ?_ hsum
    split
    · exact add_nonneg hpb hpnb
    · exact le_refl 0
  · refine add_nonneg ?_ hsum
    split
    · exact hpnb
    · exact le_refl 0
  · split
    · exact hpb
    · exact le_refl 0

theorem delta_mono (row : List ℚ) (bi ch : ℕ) (p1 p2 : BeamList) (l K : Labeling)
    (hrow : ∀ x ∈ row, 0 ≤ x) (hdom : StateLe p1 p2) :
    (delta_entry row bi ch p1 l K).1 ≤ (delta_entry row bi ch p2 l K).1
    ∧ (delta_entry row bi ch p1 l K).2.1 ≤ (delta_entry row bi ch p2 l K).2.1
    ∧ (delta_entry row bi ch p1 l K).2.2 ≤ (delta_entry row bi ch p2 l K).2.2 := by
  obtain ⟨ht, hnb, hb⟩ := hdom l
  have hrowD := getD_nonneg row hrow
  have hpb : copy_pb row bi p1 l ≤ copy_pb row bi p2 l :=
    mul_le_mul_of_nonneg_right ht (hrowD bi)
  have hpnb : copy_pnb row p1 l ≤ copy_pnb row p2 l := by
    rw [copy_pnb, copy_pnb]
    cases l.getLast? with
    | none => exact le_refl 0
    | some x => exact mul_le_mul_of_nonneg_right hnb (hrowD x)
  have hextc : ∀ c, ext_contrib row p1 l c ≤ ext_contrib row p2 l c := by
    intro c
    rw [ext_contrib, ext_contrib]
    refine mul_le_mul_of_nonneg_right ?_ (hrowD c)
    split
    · exact hb
    · exact ht
  have hsum : ((List.range (ch - 1)).map
      (fun c => if K = l ++ [c] then ext_contrib row p1 l c else 0)).sum
      ≤ ((List.range (ch - 1)).map
      (fun c => if K = l ++ [c] then ext_contrib row p2 l c else 0)).sum := by
    refine List.sum_le_sum ?_
    intro c _
    split
    · exact hextc c
    · exact le_refl 0
  refine ⟨?_, ?_, ?_⟩ <;> rw [delta_entry, delta_entry]
  · refine add_le_add ?_ hsum
    split
    · exact add_le_add hpb hpnb
    · exact le_refl 0
  · refine add_le_add ?_ hsum
    split
    · exact hpnb
    · exact le_refl 0
  · split
    · exact hpb
    · exact le_refl 0

theorem sublist_sum_le (s t : List ℚ) (h : s.Sublist t) (ht : ∀ x ∈ t, 0 ≤ x) :
    s.sum ≤ t.sum := by
  induction h with
  | slnil => simp
  | cons a h ih =>
    have h1 := ih (fun x hx => ht x (by simp [hx]))
    have ha := ht a (by simp)
    simp only [List.sum_cons]
    linarith
  | cons₂ a h ih =>
    have h1 := ih (fun x hx => ht x (by simp [hx]))
    simp only [List.sum_cons]
    linarith

theorem sum_map_le_of_subperm (sel1 sel2 : List Labeling) (g : Labeling → ℚ)
    (h : sel1.Subperm sel2) (hg : ∀ x ∈ sel2, 0 ≤ g x) :
    (sel1.map g).sum ≤ (sel2.map g).sum := by
  obtain ⟨m, hperm, hsub⟩ := h
  have h1 : (m.map g).sum = (sel1.map g).sum := (hperm.map g).sum_eq
  have h3 := sublist_sum_le (m.map g) (sel2.map g) (hsub.map g) (by
    intro x hx
    obtain ⟨y, hy, rfl⟩ := List.mem_map.mp hx
    exact hg y hy)
  linarith

theorem mem_keys_extend_fold (prev : BeamList) (dist : List ℚ) (l : Labeling) (cs : List ℕ)
    (curr : BeamList) (K : Labeling) :
    K ∈ (cs.foldl (fun cur c2 => extend_symbol prev dist l c2 cur) curr).map Prod.fst
      ↔ (∃ c ∈ cs, K = l ++ [c]) ∨ K ∈ curr.map Prod.fst := by
  induction cs generalizing curr with
  | nil => simp
  | cons c2 rest ih =>
    rw [List.foldl_cons, ih]
    simp only [extend_symbol, mem_keys_updateEntry, List.mem_cons]
    constructor
    · rintro (⟨c, hc, rfl⟩ | h | h)
      · exact Or.inl ⟨c, Or.inr hc, rfl⟩
      · exact Or.inl ⟨c2, Or.inl rfl, h⟩
      · exact Or.inr h
    · rintro (⟨c, hc | hc, rfl⟩ | h)
      · exact Or.inr (Or.inl (by rw [hc]))
      · exact Or.inl ⟨c, hc, rfl⟩
      · exact Or.inr (Or.inr h)

theorem mem_keys_process_pure (row : List ℚ) (bi ch : ℕ) (prev curr : BeamList)
    (l K : Labeling) :
    K ∈ (process_labeling_pure row bi ch prev curr l).map Prod.fst
      ↔ K = l ∨ (∃ c ∈ List.range (ch - 1), K = l ++ [c]) ∨ K ∈ curr.map Prod.fst := by
  rw [process_labeling_pure, extend_all, mem_keys_extend_fold, mem_keys_updateEntry]
  constructor
  · rintro (⟨c, hc, rfl⟩ | h | h)
    · exact Or.inr (Or.inl ⟨c, hc, rfl⟩)
    · exact Or.inl h
    · exact Or.inr (Or.inr h)
  · rintro (h | ⟨c, hc, rfl⟩ | h)
    · exact Or.inr (Or.inl h)
    · exact Or.inl ⟨c, hc, rfl⟩
    · exact Or.inr (Or.inr h)

theorem mem_keys_step_fold (row : List ℚ) (bi ch : ℕ) (prev : BeamList)
    (sel : List Labeling) (curr : BeamList) (K : Labeling) :
    K ∈ (sel.foldl (process_labeling_pure row bi ch prev) curr).map Prod.fst
      ↔ (∃ l ∈ sel, K = l ∨ ∃ c ∈ List.range (ch - 1), K = l ++ [c])
        ∨ K ∈ curr.map Prod.fst := by
  induction sel generalizing curr with
  | nil => simp
  | cons l rest ih =>
    rw [List.foldl_cons, ih, mem_keys_process_pure]
    constructor
    · rintro (⟨l2, hl2, h⟩ | h | h | h)
      · exact Or.inl ⟨l2, List.mem_cons_of_mem _ hl2, h⟩
      · exact Or.inl ⟨l, List.mem_cons_self _ _, Or.inl h⟩
      · exact Or.inl ⟨l, List.mem_cons_self _ _, Or.inr h⟩
      · exact Or.inr h
    · rintro (⟨l2, hl2, h⟩ | h)
      · rcases List.mem_cons.mp hl2 with h2 | h2
        · subst h2
          rcases h with h | h
          · exact Or.inr (Or.inl h)
          · exact Or.inr (Or.inr (Or.inl h))
        · exact Or.inl ⟨l2, h2, h⟩
      · exact Or.inr (Or.inr (Or.inr h))

/-! ### Well-formedness through a timestep -/

theorem step_pure_nonneg (row : List ℚ) (bi ch w : ℕ) (prev : BeamList)
    (hrow : ∀ x ∈ row, 0 ≤ x) (hprev : StateNonneg prev) :
    StateNonneg (step_pure row bi ch w prev) := by
  intro K
  obtain ⟨h1, h2, h3⟩ := getEntry_step_pure row bi ch w prev K
  refine ⟨?_, ?_, ?_⟩
  · rw [h1]
    refine List.sum_nonneg ?_
    intro x hx
    obtain ⟨l, _, rfl⟩ := List.mem_map.mp hx
    exact (delta_nonneg row bi ch prev l K hrow hprev).1
  · rw [h2]
    refine List.sum_nonneg ?_
    intro x hx
    obtain ⟨l, _, rfl⟩ := List.mem_map.mp hx
    exact (delta_nonneg row bi ch prev l K hrow hprev).2.1
  · rw [h3]
    refine List.sum_nonneg ?_
    intro x hx
    obtain ⟨l, _, rfl⟩ := List.mem_map.mp hx
    exact (delta_nonneg row bi ch prev l K hrow hprev).2.2

theorem keys_nodup_extend_fold (prev : BeamList) (dist : List ℚ) (l : Labeling) (cs : List ℕ)
    (curr : BeamList) (h : KeysNodup curr) :
    KeysNodup (cs.foldl (fun cur c2 => extend_symbol prev dist l c2 cur) curr) := by
  induction cs generalizing curr with
  | nil => exact h
  | cons c2 rest ih =>
    rw [List.foldl_cons]
    exact ih _ (keys_nodup_updateEntry _ _ _ h)

theorem keys_nodup_step_fold (row : List ℚ) (bi ch : ℕ) (prev : BeamList)
    (sel : List Labeling) (curr : BeamList) (h : KeysNodup curr) :
    KeysNodup (sel.foldl (process_labeling_pure row bi ch prev) curr) := by
  induction sel generalizing curr with
  | nil => exact h
  | cons l rest ih =>
    rw [List.foldl_cons]
    refine ih _ ?_
    rw [process_labeling_pure, extend_all]
    exact keys_nodup_extend_fold _ _ _ _ _ (keys_nodup_updateEntry _ _ _ h)

theorem keys_nodup_step_pure (row : List ℚ) (bi ch w : ℕ) (prev : BeamList) :
    KeysNodup (step_pure row bi ch w prev) :=
  keys_nodup_step_fold row bi ch prev _ [] (by simp [KeysNodup])

theorem labels_match_extend_fold (prev : BeamList) (dist : List ℚ) (l : Labeling)
    (cs : List ℕ) (curr : BeamList) (h : LabelsMatch curr) :
    LabelsMatch (cs.foldl (fun cur c2 => extend_symbol prev dist l c2 cur) curr) := by
  induction cs generalizing curr with
  | nil => exact h
  | cons c2 rest ih =>
    rw [List.foldl_cons]
    exact ih _ (labels_match_updateEntry _ _ _ h (fun e => rfl))

theorem labels_match_step_fold (row : List ℚ) (bi ch : ℕ) (prev : BeamList)
    (sel : List Labeling) (curr : BeamList) (h : LabelsMatch curr) :
    LabelsMatch (sel.foldl (process_labeling_pure row bi ch prev) curr) := by
  induction sel generalizing curr with
  | nil => exact h
  | cons l rest ih =>
    rw [List.foldl_cons]
    refine ih _ ?_
    rw [process_labeling_pure, extend_all]
    exact labels_match_extend_fold _ _ _ _ _
      (labels_match_updateEntry _ _ _ h (fun e => rfl))

theorem labels_match_step_pure (row : List ℚ) (bi ch w : ℕ) (prev : BeamList) :
    LabelsMatch (step_pure row bi ch w prev) :=
  labels_match_step_fold row bi ch prev _ [] (by intro p hp; cases hp)

theorem sort_labelings_perm_keys (bl : BeamList) (hlm : LabelsMatch bl) :
    (sort_labelings bl).Perm (bl.map Prod.fst) := by
  rw [sort_labelings]
  have h1 := (sort_entries_desc_perm (bl.map Prod.snd)).map (fun e => e.labeling)
  have h2 : (bl.map Prod.snd).map (fun e => e.labeling) = bl.map Prod.fst := by
    rw [List.map_map]
    exact List.map_congr_left hlm
  rw [h2] at h1
  exact h1

theorem sel_nodup (bl : BeamList) (hnd : KeysNodup bl) (hlm : LabelsMatch bl) (k : ℕ) :
    ((sort_labelings bl).take k).Nodup :=
  (List.take_sublist k _).nodup ((sort_labelings_perm_keys bl hlm).nodup_iff.mpr hnd)

theorem sel_subset_keys (bl : BeamList) (hlm : LabelsMatch bl) (k : ℕ) :
    ∀ x ∈ (sort_labelings bl).take k, x ∈ bl.map Prod.fst :=
  fun _ hx => (sort_labelings_perm_keys bl hlm).mem_iff.mp (List.mem_of_mem_take hx)

theorem mem_sel_full (bl : BeamList) (hlm : LabelsMatch bl) (K2 : ℕ)
    (hlen : bl.length ≤ K2) (x : Labeling) (hx : x ∈ bl.map Prod.fst) :
    x ∈ (sort_labelings bl).take K2 := by
  have hts : (sort_labelings bl).take K2 = sort_labelings bl := by
    refine List.take_of_length_le ?_
    rw [(sort_labelings_perm_keys bl hlm).length_eq, List.length_map]
    exact hlen
  rw [hts]
  exact (sort_labelings_perm_keys bl hlm).mem_iff.mpr hx

theorem step_pure_dominates (row : List ℚ) (bi ch k K2 : ℕ) (p1 p2 : BeamList)
    (hrow : ∀ x ∈ row, 0 ≤ x) (hdom : StateLe p1 p2) (hp2 : StateNonneg p2)
    (hsub : ∀ x ∈ (sort_labelings p1).take k, x ∈ (sort_labelings p2).take K2)
    (hnd1 : ((sort_labelings p1).take k).Nodup) :
    StateLe (step_pure row bi ch k p1) (step_pure row bi ch K2 p2) := by
  intro K
  obtain ⟨a1, a2, a3⟩ := getEntry_step_pure row bi ch k p1 K
  obtain ⟨b1, b2, b3⟩ := getEntry_step_pure row bi ch K2 p2 K
  have hsp : ((sort_labelings p1).take k).Subperm ((sort_labelings p2).take K2) :=
    hnd1.subperm hsub
  have key : ∀ (f1 f2 : Labeling → ℚ), (∀ l, f1 l ≤ f2 l) → (∀ l, 0 ≤ f2 l) →
      (((sort_labelings p1).take k).map f1).sum
        ≤ (((sort_labelings p2).take K2).map f2).sum := by
    intro f1 f2 hle hnn
    calc (((sort_labelings p1).take k).map f1).sum
        ≤ (((sort_labelings p1).take k).map f2).sum := List.sum_le_sum (fun l _ => hle l)
      _ ≤ (((sort_labelings p2).take K2).map f2).sum :=
          sum_map_le_of_subperm _ _ f2 hsp (fun x _ => hnn x)
  refine ⟨?_, ?_, ?_⟩
  · rw [a1, b1]
    exact key _ _ (fun l => (delta_mono row bi ch p1 p2 l K hrow hdom).1)
      (fun l => (delta_nonneg row bi ch p2 l K hrow hp2).1)
  · rw [a2, b2]
    exact key _ _ (fun l => (delta_mono row bi ch p1 p2 l K hrow hdom).2.1)
      (fun l => (delta_nonneg row bi ch p2 l K hrow hp2).2.1)
  · rw [a3, b3]
    exact key _ _ (fun l => (delta_mono row bi ch p1 p2 l K hrow hdom).2.2)
      (fun l => (delta_nonneg row bi ch p2 l K hrow hp2).2.2)

theorem step_pure_keys_subset (row : List ℚ) (bi ch k K2 : ℕ) (p1 p2 : BeamList)
    (hsub : ∀ x ∈ (sort_labelings p1).take k, x ∈ (sort_labelings p2).take K2) :
    ∀ x ∈ (step_pure row bi ch k p1).map Prod.fst,
      x ∈ (step_pure row bi ch K2 p2).map Prod.fst := by
  intro x hx
  rw [step_pure] at hx ⊢
  rcases (mem_keys_step_fold row bi ch p1 _ [] x).mp hx with ⟨l, hl, h⟩ | h
  · exact (mem_keys_step_fold row bi ch p2 _ [] x).mpr (Or.inl ⟨l, hsub l hl, h⟩)
  · simp at h

/-! ### Whole-run dominance -/

theorem findEntry_mem (bl : BeamList) (k : Labeling) (e : BeamEntry)
    (h : findEntry bl k = some e) : (k, e) ∈ bl := by
  induction bl with
  | nil => cases h
  | cons q rest ih =>
    obtain ⟨k1, e1⟩ := q
    by_cases hk : k1 = k
    · subst hk
      rw [findEntry, if_pos rfl] at h
      have he : e1 = e := Option.some.inj h
      rw [← he]
      exact List.mem_cons_self _ _
    · rw [findEntry, if_neg hk] at h
      exact List.mem_cons_of_mem _ (ih h)

theorem state_nonneg_mem (bl : BeamList) (hnd : KeysNodup bl) (h : StateNonneg bl) :
    ∀ p ∈ bl, 0 ≤ (Prod.snd p).pr_total := by
  intro p hp
  obtain ⟨k, e⟩ := p
  have he := getEntry_of_mem bl hnd k e hp
  have := (h k).1
  rw [he] at this
  exact this

theorem getEntry_total_le_best (bl : BeamList)
    (hnn : ∀ p ∈ bl, 0 ≤ (Prod.snd p).pr_total) (k : Labeling) :
    (getEntry bl k).pr_total ≤ best_total bl := by
  cases hf : findEntry bl k with
  | none =>
    rw [getEntry, hf]
    simpa [default_entry] using best_total_nonneg bl hnn
  | some e =>
    rw [getEntry, hf]
    exact le_best_total bl e (List.mem_map.mpr ⟨(k, e), findEntry_mem bl k e hf, rfl⟩)

theorem best_total_le_of_dominated (b1 b2 : BeamList) (hdom : StateLe b1 b2)
    (hnd1 : KeysNodup b1) (hnd2 : KeysNodup b2) (_hnn1 : StateNonneg b1)
    (hnn2 : StateNonneg b2) : best_total b1 ≤ best_total b2 := by
  have hnn2m := state_nonneg_mem b2 hnd2 hnn2
  cases hs : sort_entries_desc (b1.map Prod.snd) with
  | nil =>
    have h0 : best_total b1 = 0 := by
      rw [best_total, hs]
      rfl
    rw [h0]
    exact best_total_nonneg b2 hnn2m
  | cons hd t =>
    have hmem : hd ∈ b1.map Prod.snd :=
      (sort_entries_desc_perm _).mem_iff.mp (by rw [hs]; exact List.mem_cons_self hd t)
    obtain ⟨p, hp, he⟩ := List.mem_map.mp hmem
    obtain ⟨kk, ee⟩ := p
    have hb1 : best_total b1 = hd.pr_total := by
      rw [best_total, hs]
      rfl
    have hge : getEntry b1 kk = ee := getEntry_of_mem b1 hnd1 kk ee hp
    calc best_total b1 = ee.pr_total := by rw [hb1, ← he]
      _ = (getEntry b1 kk).pr_total := by rw [hge]
      _ ≤ (getEntry b2 kk).pr_total := (hdom kk).1
      _ ≤ best_total b2 := getEntry_total_le_best b2 hnn2m kk

theorem run_pure_dominates : ∀ (mat : List (List ℚ)) (bi ch k K2 : ℕ) (st1 st2 : BeamList),
    (∀ row ∈ mat, ∀ x ∈ row, 0 ≤ x) → StateLe st1 st2 →
    (∀ x ∈ st1.map Prod.fst, x ∈ st2.map Prod.fst) → GoodState st1 → GoodState st2 →
    (∀ t ∈ List.range (mat.length + 1), (run_pure (mat.take t) bi ch K2 st2).length ≤ K2) →
    StateLe (run_pure mat bi ch k st1) (run_pure mat bi ch K2 st2)
    ∧ GoodState (run_pure mat bi ch k st1) ∧ GoodState (run_pure mat bi ch K2 st2) := by
  intro mat
  induction mat with
  | nil =>
    intro bi ch k K2 st1 st2 _ hdom _ h1 h2 _
    exact ⟨hdom, h1, h2⟩
  | cons row mat2 ih =>
    intro bi ch k K2 st1 st2 hmat hdom hkeys h1 h2 hNT
    obtain ⟨hnn1, hnd1, hlm1⟩ := h1
    obtain ⟨hnn2, hnd2, hlm2⟩ := h2
    have hrow : ∀ x ∈ row, 0 ≤ x := hmat row (by simp)
    have hmat2 : ∀ r ∈ mat2, ∀ x ∈ r, 0 ≤ x := fun r hr => hmat r (by simp [hr])
    have hlen2 : st2.length ≤ K2 := by
      have h0 := hNT 0 (by simp)
      simpa [run_pure] using h0
    have hsel : ∀ x ∈ (sort_labelings st1).take k, x ∈ (sort_labelings st2).take K2 := by
      intro x hx
      exact mem_sel_full st2 hlm2 K2 hlen2 x (hkeys x (sel_subset_keys st1 hlm1 k x hx))
    have hndsel := sel_nodup st1 hnd1 hlm1 k
    have hdom2 := step_pure_dominates row bi ch k K2 st1 st2 hrow hdom hnn2 hsel hndsel
    have hkeys2 := step_pure_keys_subset row bi ch k K2 st1 st2 hsel
    have hg1 : GoodState (step_pure row bi ch k st1) :=
      ⟨step_pure_nonneg row bi ch k st1 hrow hnn1, keys_nodup_step_pure row bi ch k st1,
        labels_match_step_pure row bi ch k st1⟩
    have hg2 : GoodState (step_pure row bi ch K2 st2) :=
      ⟨step_pure_nonneg row bi ch K2 st2 hrow hnn2, keys_nodup_step_pure row bi ch K2 st2,
        labels_match_step_pure row bi ch K2 st2⟩
    have hNT2 : ∀ t ∈ List.range (mat2.length + 1),
        (run_pure (mat2.take t) bi ch K2 (step_pure row bi ch K2 st2)).length ≤ K2 := by
      intro t ht
      have h3 := hNT (t + 1) (by
        simp only [List.mem_range] at ht ⊢
        simpa using Nat.succ_lt_succ ht)
      rw [List.take_succ_cons, run_pure, List.foldl_cons] at h3
      exact h3
    have hres := ih bi ch k K2 (step_pure row bi ch k st1) (step_pure row bi ch K2 st2)
      hmat2 hdom2 hkeys2 hg1 hg2 hNT2
    rw [run_pure, List.foldl_cons, run_pure, List.foldl_cons]
    exact hres

/-! ### The no-model run computes `run_pure` -/

theorem process_labeling_none (sThr rThr : ℝ) (lc bi ch : ℕ) (prev : BeamList)
    (row : List ℚ) (sEnt : ℝ) (cur : BeamList × Cache) (l : Labeling) :
    process_labeling none sThr rThr lc bi ch prev row sEnt cur l
      = some (process_labeling_pure row bi ch prev cur.1 l, cur.2) := by
  rw [process_labeling, process_labeling_pure]
  cases hl : l.getLast? with
  | none => simp [hl, copy_pnb, Option.isSome_none]
  | some x => simp [hl, copy_pnb, Option.isSome_none]

theorem foldlM_process_none (sThr rThr : ℝ) (lc bi ch : ℕ) (prev : BeamList)
    (row : List ℚ) (sEnt : ℝ) (sel : List Labeling) (st : BeamList) (c : Cache) :
    sel.foldlM (process_labeling none sThr rThr lc bi ch prev row sEnt) (st, c)
      = some (sel.foldl (process_labeling_pure row bi ch prev) st, c) := by
  induction sel generalizing st with
  | nil => rfl
  | cons l rest ih =>
    rw [List.foldlM_cons, process_labeling_none]
    simpa [List.foldl_cons] using ih (process_labeling_pure row bi ch prev st l)

theorem beam_step_none (sThr rThr : ℝ) (lc bi ch w : ℕ) (stc : BeamList × Cache)
    (rowE : List ℚ × ℝ) :
    beam_step none sThr rThr lc bi ch w stc rowE
      = some (step_pure rowE.1 bi ch w stc.1, stc.2) := by
  rw [beam_step, step_pure]
  exact foldlM_process_none sThr rThr lc bi ch stc.1 rowE.1 rowE.2 _ [] stc.2

theorem foldlM_beam_step_none (sThr rThr : ℝ) (lc bi ch w : ℕ) (rows : List (List ℚ))
    (st : BeamList) (c : Cache) :
    ((rows.map (fun row => (row, entropy (normalise row.dropLast)))).foldlM
        (beam_step none sThr rThr lc bi ch w) (st, c))
      = some (rows.foldl (fun s row => step_pure row bi ch w s) st, c) := by
  induction rows generalizing st with
  | nil => rfl
  | cons row rest ih =>
    rw [List.map_cons, List.foldlM_cons, beam_step_none]
    simpa [List.foldl_cons] using ih (step_pure row bi ch w st)

theorem final_state_none (mat : List (List ℚ)) (bases : String) (w : ℕ) (sThr rThr : ℝ)
    (lc : ℕ) (cache : Cache) :
    beam_search_final_state mat bases w none sThr rThr lc cache
      = some (run_pure mat bases.length (mat.headD []).length w init_state, cache) := by
  rw [beam_search_final_state, run_pure]
  exact foldlM_beam_step_none sThr rThr lc bases.length (mat.headD []).length w mat
    init_state cache

theorem final_best_none (mat : List (List ℚ)) (bases : String) (w : ℕ) (sThr rThr : ℝ)
    (lc : ℕ) (cache : Cache) :
    final_best_pr_total mat bases w none sThr rThr lc cache
      = some (best_total (run_pure mat bases.length (mat.headD []).length w init_state)) := by
  rw [final_best_pr_total, final_state_none]
  rfl

theorem init_state_good : GoodState init_state := by
  refine ⟨?_, ?_, ?_⟩
  · intro l
    rw [init_state, getEntry, findEntry]
    by_cases h : ([] : Labeling) = l
    · rw [if_pos h]
      refine ⟨?_, ?_, ?_⟩ <;> norm_num
    · rw [if_neg h]
      refine ⟨?_, ?_, ?_⟩ <;> norm_num [findEntry, default_entry]
  · simp [KeysNodup, init_state]
  · intro p hp
    simp only [init_state, List.mem_singleton] at hp
    rw [hp]

/-! ### C6 — beam-width monotonicity -/

/-- C6 (counterexample): increasing the beam width can strictly decrease the
final best `pr_total`.  On the row-stochastic nonnegative 3-timestep matrix
below (two symbols plus blank), `beam_search` with width 2 reaches best total
`8/21` while width 3 reaches only `19/63 < 8/21`: the wider run ranks the
hypotheses differently at the intermediate step and drops the labeling whose
descendants carry the most mass. -/
theorem beam_width_monotonicity_counterexample :
    (([1/3, 1/3, 1/3] : List ℚ).sum = 1 ∧ ([1/2, 1/6, 1/3] : List ℚ).sum = 1
      ∧ ([5/7, 1/7, 1/7] : List ℚ).sum = 1)
    ∧ ((0:ℚ) ≤ 1/3 ∧ (0:ℚ) ≤ 1/2 ∧ (0:ℚ) ≤ 1/6 ∧ (0:ℚ) ≤ 5/7 ∧ (0:ℚ) ≤ 1/7)
    ∧ 2 < 3
    ∧ (final_best_pr_total [[1/3, 1/3, 1/3], [1/2, 1/6, 1/3], [5/7, 1/7, 1/7]] "AB" 3 none
        0 0 0 (fun _ => none)).getD 0
      < (final_best_pr_total [[1/3, 1/3, 1/3], [1/2, 1/6, 1/3], [5/7, 1/7, 1/7]] "AB" 2 none
        0 0 0 (fun _ => none)).getD 0 := by
  refine ⟨⟨by norm_num, by norm_num, by norm_num⟩,
    ⟨by norm_num, by norm_num, by norm_num, by norm_num, by norm_num⟩, by norm_num, ?_⟩
  rw [final_best_none, final_best_none]
  have hb : ("AB" : String).length = 2 := rfl
  have hh : (([[1/3, 1/3, 1/3], [1/2, 1/6, 1/3], [5/7, 1/7, 1/7]] :
      List (List ℚ)).headD []).length = 3 := rfl
  rw [hb, hh]
  simp only [Option.getD_some]
  have h2 : best_total (run_pure [[1/3, 1/3, 1/3], [1/2, 1/6, 1/3], [5/7, 1/7, 1/7]] 2 3 2
      init_state) = 8/21 := by
    norm_num [run_pure, step_pure, process_labeling_pure, extend_all, extend_symbol,
      extend_mod, copy_mod, copy_pb, copy_pnb, ext_contrib, updateEntry, getEntry, findEntry,
      sort_labelings, sort_entries_desc, insert_desc, best_total, init_state, default_entry,
      List.range_succ, List.cons_ne_nil, List.cons.injEq, List.nil_eq, ne_eq]
  have h3 : best_total (run_pure [[1/3, 1/3, 1/3], [1/2, 1/6, 1/3], [5/7, 1/7, 1/7]] 2 3 3
      init_state) = 19/63 := by
    norm_num [run_pure, step_pure, process_labeling_pure, extend_all, extend_symbol,
      extend_mod, copy_mod, copy_pb, copy_pnb, ext_contrib, updateEntry, getEntry, findEntry,
      sort_labelings, sort_entries_desc, insert_desc, best_total, init_state, default_entry,
      List.range_succ, List.cons_ne_nil, List.cons.injEq, List.nil_eq, ne_eq]
  rw [h2, h3]
  norm_num

/-- C6 (amended): with a nonnegative matrix and no language model, a beam
width `K2` large enough that no intermediate state is ever truncated (the
untruncated search) attains a final best `pr_total` at least that of
`beam_search` with any beam width `k`.  Monotonicity between two arbitrary
finite widths is false (see the counterexample). -/
theorem untruncated_beam_dominates (mat : List (List ℚ)) (bases : String) (k K2 : ℕ)
    (sThr rThr : ℝ) (lc : ℕ) (cache : Cache)
    (hmat : ∀ row ∈ mat, ∀ x ∈ row, 0 ≤ x)
    (hNT : no_trunc_from mat bases.length (mat.headD []).length K2 init_state) :
    (final_best_pr_total mat bases k none sThr rThr lc cache).getD 0
      ≤ (final_best_pr_total mat bases K2 none sThr rThr lc cache).getD 0 := by
  rw [final_best_none, final_best_none]
  simp only [Option.getD_some]
  obtain ⟨hdom, hg1, hg2⟩ := run_pure_dominates mat bases.length (mat.headD []).length k K2
    init_state init_state hmat (fun l => ⟨le_refl _, le_refl _, le_refl _⟩)
    (fun _ hx => hx) init_state_good init_state_good hNT
  exact best_total_le_of_dominated _ _ hdom hg1.2.1 hg2.2.1 hg1.1 hg2.1

/-- Witness for the amended C6 on a one-timestep matrix with widths 1 and 5. -/
theorem untruncated_beam_dominates_witness :
    (∀ row ∈ ([[1, 0]] : List (List ℚ)), ∀ x ∈ row, 0 ≤ x)
    ∧ no_trunc_from [[1, 0]] ("A" : String).length
        (([[1, 0]] : List (List ℚ)).headD []).length 5 init_state
    ∧ (final_best_pr_total [[1, 0]] "A" 1 none 0 0 0 (fun _ => none)).getD 0
      ≤ (final_best_pr_total [[1, 0]] "A" 5 none 0 0 0 (fun _ => none)).getD 0 := by
  have hmat : ∀ row ∈ ([[1, 0]] : List (List ℚ)), ∀ x ∈ row, 0 ≤ x := by
    intro row hr x hx
    simp only [List.mem_singleton] at hr
    rw [hr] at hx
    rcases List.mem_cons.mp hx with h | h
    · rw [h]
      norm_num
    · simp only [List.mem_singleton] at h
      rw [h]
  have hNT : no_trunc_from [[1, 0]] ("A" : String).length
      (([[1, 0]] : List (List ℚ)).headD []).length 5 init_state := by
    intro t ht
    simp only [List.length_singleton, List.mem_range] at ht
    interval_cases t
    · norm_num [run_pure, init_state]
    · norm_num [run_pure, step_pure, process_labeling_pure, extend_all, extend_symbol,
        extend_mod, copy_mod, copy_pb, copy_pnb, ext_contrib, updateEntry, getEntry,
        findEntry, sort_labelings, sort_entries_desc, insert_desc, init_state, default_entry,
        List.range_succ, List.cons_ne_nil, List.cons.injEq, List.nil_eq, ne_eq]
  exact ⟨hmat, hNT, untruncated_beam_dominates [[1, 0]] "A" 1 5 0 0 0 (fun _ => none)
    hmat hNT⟩

end Radian
